import Mathlib

/-!
# Verification of the codepoints offset/position translation engine

This file gives a shallow embedding of the core of the `vscode-codepoints`
extension (`src/extension.ts`, latest revision in the file) and proves the
specification claims about it.

Modelling conventions:
* A JavaScript string is a list of UTF-16 code units (`Units := List Nat`).
* A text document is its list of line texts (without terminators) plus the
  document-wide end-of-line style, mirroring the `vscode.TextDocument`
  interface used by the code (`lineAt(n).text`, `lineCount`, `eol`,
  `getText(range)`).
* JavaScript iteration over a string (`for (const ch of s)`) walks code
  points, pairing a high surrogate with a following low surrogate
  (`jsStringChars`, `decodeUnits`).
* `Buffer.from(s, 'utf8')` is `utf8OfUnits` (a lone surrogate encodes as the
  replacement character U+FFFD, as Node does).
* The unbounded `while` loop of `iterCharPositions` is embedded with a fuel
  argument; the fuel `posMeasure doc pos + 1` is always sufficient (proved by
  the `posMeasure_lt` descent lemma together with fuel irrelevance), so the
  embedding computes exactly the sequence the generator yields.
* Functions that throw are embedded with `Except`/`Option` results; a source
  function whose only non-local exit is an uncaught exception on an
  out-of-range line access returns `none` there.
-/

set_option linter.unusedVariables false

namespace CodePoints

/-- UTF-16 code units of a JavaScript string. -/
abbrev Units := List Nat

/-- `0xd800 <= c < 0xdc00`, the test used at `advancePosition` for
"the code point is represented as a Unicode surrogate pair". -/
def isHighSurrogate (c : Nat) : Bool := decide (0xd800 ≤ c ∧ c < 0xdc00)

/-- A UTF-16 low (trailing) surrogate. -/
def isLowSurrogate (c : Nat) : Bool := decide (0xdc00 ≤ c ∧ c < 0xe000)

/-- The code point denoted by a surrogate pair. -/
def combineSurrogates (hi lo : Nat) : Nat :=
  0x10000 + (hi - 0xd800) * 0x400 + (lo - 0xdc00)

/-- The code points produced by JavaScript string iteration: a high surrogate
followed by a low surrogate yields the combined code point, any other unit
yields its own value (this is what `[...text]` and `codePointAt` see). -/
def decodeUnits : Units → List Nat
  | [] => []
  | [c] => [c]
  | c :: c2 :: rest =>
    if isHighSurrogate c then
      if isLowSurrogate c2 then combineSurrogates c c2 :: decodeUnits rest
      else c :: decodeUnits (c2 :: rest)
    else c :: decodeUnits (c2 :: rest)

/-- JavaScript string iteration, keeping each logical character as its list of
code units: `[hi, lo]` for a surrogate pair, `[c]` otherwise. -/
def jsStringChars : Units → List Units
  | [] => []
  | [c] => [[c]]
  | c :: c2 :: rest =>
    if isHighSurrogate c then
      if isLowSurrogate c2 then [c, c2] :: jsStringChars rest
      else [c] :: jsStringChars (c2 :: rest)
    else [c] :: jsStringChars (c2 :: rest)

/-- UTF-8 encoding of one code point, as `Buffer.from(.., 'utf8')` produces it
(a lone surrogate value becomes the replacement character U+FFFD). -/
def utf8EncodeCp (cp : Nat) : List Nat :=
  if 0xd800 ≤ cp ∧ cp < 0xe000 then [0xef, 0xbf, 0xbd]
  else if cp ≤ 0x7f then [cp]
  else if cp ≤ 0x7ff then [0xc0 + cp / 0x40, 0x80 + cp % 0x40]
  else if cp ≤ 0xffff then
    [0xe0 + cp / 0x1000, 0x80 + cp / 0x40 % 0x40, 0x80 + cp % 0x40]
  else
    [0xf0 + cp / 0x40000, 0x80 + cp / 0x1000 % 0x40, 0x80 + cp / 0x40 % 0x40,
      0x80 + cp % 0x40]

/-- The bytes of `Buffer.from(s, 'utf8')` for a JavaScript string `s`. -/
def utf8OfUnits (s : Units) : List Nat := ((decodeUnits s).map utf8EncodeCp).flatten

/-- `Buffer.from(s, 'utf8').length`. -/
def utf8Length (s : Units) : Nat := (utf8OfUnits s).length

/-- `[...s].length`: the number of code points of a JavaScript string. -/
def cpCount (s : Units) : Nat := (decodeUnits s).length

/-- `s.codePointAt(0)!` (0 for the empty string, which the code never asks). -/
def codePointAt0 (s : Units) : Nat := (decodeUnits s).headD 0

/-- Well-formed UTF-16: every high surrogate is followed by a low surrogate,
no stray low surrogates, every unit below 0x10000.  Text obtained by decoding
a file satisfies this. -/
def wfUnits : Units → Bool
  | [] => true
  | [c] => !isHighSurrogate c && (decide (c < 0x10000) && !isLowSurrogate c)
  | c :: c2 :: rest =>
    if isHighSurrogate c then isLowSurrogate c2 && wfUnits rest
    else decide (c < 0x10000) && !isLowSurrogate c && wfUnits (c2 :: rest)

/-- The document-wide line-ending style flag (`vscode.EndOfLine`). -/
inductive Eol where
  | lf
  | crlf
deriving DecidableEq, Repr

/-- An editor position: line and UTF-16 code-unit column (`vscode.Position`). -/
structure Pos where
  line : Nat
  col : Nat
deriving DecidableEq, Repr

/-- A text document as the code consumes it: per-line text (terminators
excluded, as `lineAt(n).text` returns it) and the end-of-line style.
VS Code guarantees `lineCount ≥ 1`; claims assume `lines ≠ []`. -/
structure Doc where
  lines : List Units
  eol : Eol
deriving DecidableEq, Repr

/-- The text of line `j` (`lineAt(j).text`); `[]` out of range. -/
def lineText (doc : Doc) (j : Nat) : Units := (doc.lines.get? j).getD []

/-- The length in code units of line `j`. -/
def lineLen (doc : Doc) (j : Nat) : Nat := (lineText doc j).length

/-- The physical line-terminator units for the document's eol style. -/
def termUnits : Eol → Units
  | .lf => [10]
  | .crlf => [13, 10]

/-- `doc.eol === vscode.EndOfLine.CRLF ? 2 : 1` (used by the line table). -/
def lineEndBytes (eol : Eol) : Nat := if eol = .crlf then 2 else 1

/-- A well-formed document: at least one line (as VS Code guarantees) and
well-formed UTF-16 line text. -/
def WfDoc (doc : Doc) : Prop :=
  doc.lines ≠ [] ∧ ∀ l ∈ doc.lines, wfUnits l = true

instance : DecidablePred WfDoc := fun doc => by
  unfold WfDoc; infer_instance

/-- Clamping of a position to a valid document position, as
`document.validatePosition` / `getText` do before extracting text. -/
def clampPos (doc : Doc) (p : Pos) : Pos :=
  if p.line < doc.lines.length then ⟨p.line, min p.col (lineLen doc p.line)⟩
  else ⟨doc.lines.length - 1, lineLen doc (doc.lines.length - 1)⟩

/-- `doc.getText(new vscode.Range(p, q))`: the physical text between two
positions, with the document's terminator between lines. -/
def getTextRange (doc : Doc) (p q : Pos) : Units :=
  let a := clampPos doc p
  let b := clampPos doc q
  if a.line = b.line then ((lineText doc a.line).take b.col).drop a.col
  else if a.line < b.line then
    ((lineText doc a.line).drop a.col)
      ++ termUnits doc.eol
      ++ (((doc.lines.drop (a.line + 1)).take (b.line - a.line - 1)).map
            (fun l => l ++ termUnits doc.eol)).flatten
      ++ (lineText doc b.line).take b.col
  else []

/-- `s.slice(0, maxLength)` with an optional bound (`undefined` keeps all). -/
def jsSlice (s : Units) : Option Nat → Units
  | none => s
  | some m => s.take m

/-- The test `text.match(/\r(?!\n)|(?<!\r)\n/)`: scan for a carriage return
not followed by a newline, or a newline not preceded by a carriage return. -/
def brokenCRLF : Units → Bool
  | [] => false
  | [c] => c == 13 || c == 10
  | c :: c2 :: rest =>
    if c = 13 then (if c2 = 10 then brokenCRLF rest else true)
    else if c = 10 then true
    else brokenCRLF (c2 :: rest)

/-- `text.replace(/\r\n/g, '\n')`: collapse every (non-overlapping, scanned
left to right) CRLF pair. -/
def replaceCRLFg : Units → Units
  | [] => []
  | [c] => [c]
  | c :: c2 :: rest =>
    if c = 13 ∧ c2 = 10 then 10 :: replaceCRLFg rest
    else c :: replaceCRLFg (c2 :: rest)

/-- Position `i` of `s` holds an unpaired terminator unit: a `\r` not followed
by `\n`, or a `\n` not preceded by `\r` (the property the regex detects). -/
def unpairedAt (s : Units) (i : Nat) : Bool :=
  (s.getD i 0 == 13 && !(s.getD (i + 1) 0 == 10)) ||
    (s.getD i 0 == 10 && (i == 0 || !(s.getD (i - 1) 0 == 13)))

/-- Some position of `s` holds an unpaired `\r` or `\n`. -/
def hasUnpaired (s : Units) : Bool := (List.range s.length).any (unpairedAt s)

/-- `getDocText(doc, range, maxLength)`: extract the text of a range, truncate
to `maxLength`, and for CRLF documents reject broken CRLF pairs and collapse
the intact pairs to `\n`.  A thrown `Error` is an `Except.error`. -/
def getDocText (doc : Doc) (p q : Pos) (maxLength : Option Nat) :
    Except String Units :=
  let text := jsSlice (getTextRange doc p q) maxLength
  if doc.eol = .crlf then
    if brokenCRLF text then .error ("File contains broken CRLF pairs")
    else .ok (replaceCRLFg text)
  else .ok text

/-- The loop body of `advancePosition`: `count` remaining steps, current line
number and column, and the current line's text (the `line` variable). -/
def advanceLoop (doc : Doc) : Nat → Nat → Nat → Units → Option Pos
  | 0, lineNum, colNum, _ => some ⟨lineNum, colNum⟩
  | count + 1, lineNum, colNum, line =>
    if line.length ≤ colNum then
      match doc.lines.get? (lineNum + 1) with
      | none => none
      | some line2 => advanceLoop doc count (lineNum + 1) 0 line2
    else
      if isHighSurrogate (line.getD colNum 0) then
        advanceLoop doc count lineNum (colNum + 2) line
      else
        advanceLoop doc count lineNum (colNum + 1) line

/-- `advancePosition(pos, doc, count)`: advance a position by `count` logical
characters, `none` at end of document.  The source looks the starting line up
outside its `try`, so an out-of-range start has no result either. -/
def advancePosition (pos : Pos) (doc : Doc) (count : Nat) : Option Pos :=
  match doc.lines.get? pos.line with
  | none => none
  | some line => advanceLoop doc count pos.line pos.col line

/-- One record of the line table (`LineInfo`). -/
structure LineInfo where
  text : Units
  pos : Pos
  byteOffset : Nat
  charOffset : Nat
deriving DecidableEq, Repr

/-- One record of the character enumeration (`CharInfo`). -/
structure CharInfo where
  char : Units
  pos : Pos
  byteOffset : Nat
  charOffset : Nat
deriving DecidableEq, Repr

/-- The options object of `iterLineStartPositions`. -/
structure LineIterOptions where
  omitByteOffset : Bool
  omitCharOffset : Bool
deriving DecidableEq, Repr

/-- The loop of `iterLineStartPositions`, over the remaining lines with the
current line number and running offsets. -/
def iterLineStartAux (eol : Eol) (opts : LineIterOptions) :
    List Units → Nat → Nat → Nat → List LineInfo
  | [], _, _, _ => []
  | text :: rest, lineNum, byteOffset, charOffset =>
    ⟨text, ⟨lineNum, 0⟩, byteOffset, charOffset⟩ ::
      iterLineStartAux eol opts rest (lineNum + 1)
        (if opts.omitByteOffset then byteOffset
         else byteOffset + utf8Length text + lineEndBytes eol)
        (if opts.omitCharOffset then charOffset else charOffset + cpCount text + 1)

/-- `iterLineStartPositions(doc, options)`: one `LineInfo` per line, starting
offsets accumulated from `(0, 0)` unless omitted. -/
def iterLineStartPositions (doc : Doc) (opts : LineIterOptions) : List LineInfo :=
  iterLineStartAux doc.eol opts doc.lines 0 0 0

/-- Sum of `length + 2` over the lines from `j` on; dominates the number of
code units (plus per-line slack) the character scan can still visit. -/
def tailUnits (doc : Doc) (j : Nat) : Nat :=
  ((doc.lines.drop j).map (fun l => l.length + 2)).sum

/-- Strictly decreasing measure for the `iterCharPositions` loop. -/
def posMeasure (doc : Doc) (pos : Pos) : Nat :=
  tailUnits doc pos.line - min pos.col (lineLen doc pos.line + 1)

/-- The `while (true)` loop of `iterCharPositions`, with fuel.  Each iteration
advances one character, yields its record, and accumulates the offsets; the
final record (empty character) marks end of document. -/
def iterCharAux (doc : Doc) : Nat → Pos → Nat → Nat → List CharInfo
  | 0, _, _, _ => []
  | fuel + 1, pos, byteOffset, charOffset =>
    match advancePosition pos doc 1 with
    | none => [⟨[], pos, byteOffset, charOffset⟩]
    | some nextPos =>
      let char := getTextRange doc pos nextPos
      ⟨char, pos, byteOffset, charOffset⟩ ::
        iterCharAux doc fuel nextPos (byteOffset + utf8Length char) (charOffset + 1)

/-- The character scan from a given position and offsets; the fuel
`posMeasure doc pos + 1` always suffices (`posMeasure_lt`), so this is the
full sequence the generator yields. -/
def iterCharFrom (doc : Doc) (pos : Pos) (byteOffset charOffset : Nat) :
    List CharInfo :=
  iterCharAux doc (posMeasure doc pos + 1) pos byteOffset charOffset

/-- `iterCharPositions(doc, start?)`: all character records from `start`
(or from the document start). -/
def iterCharPositions (doc : Doc) (start : Option LineInfo) : List CharInfo :=
  match start with
  | some s => iterCharFrom doc s.pos s.byteOffset s.charOffset
  | none => iterCharFrom doc ⟨0, 0⟩ 0 0

/-- The `peeking` helper: pair every element with its successor (the last with
`none`). -/
def peekingAux {α : Type} (x : α) : List α → List (α × Option α)
  | [] => [(x, none)]
  | y :: ys => (x, some y) :: peekingAux y ys

/-- `peeking(iterable)`. -/
def peeking {α : Type} : List α → List (α × Option α)
  | [] => []
  | x :: xs => peekingAux x xs

/-- A selection: anchor and active position (`vscode.Selection`). -/
structure Selection where
  anchor : Pos
  active : Pos
deriving DecidableEq, Repr

/-- The inner loop of `gotoByte`: first record at the target starts an empty
selection; the first record past it selects from the previous record's
position (the containing character). -/
def gotoByteScan (target : Nat) : Option Pos → List CharInfo → Option Selection
  | _, [] => none
  | prevPos, r :: rest =>
    if r.byteOffset = target then some ⟨r.pos, r.pos⟩
    else if target < r.byteOffset then some ⟨prevPos.getD r.pos, r.pos⟩
    else gotoByteScan target (some r.pos) rest

/-- `!lineInfo.next || lineInfo.next.byteOffset > targetOffset`. -/
def lineQualifiesByte (next : Option LineInfo) (target : Nat) : Bool :=
  match next with
  | none => true
  | some ni => decide (target < ni.byteOffset)

/-- The outer loop of `gotoByte` over the peeked line table: scan each line
whose successor's byte offset already exceeds the target (or which is last);
the first scan that sets a selection ends the command. -/
def gotoByteLines (doc : Doc) (target : Nat) :
    List (LineInfo × Option LineInfo) → Option Selection
  | [] => none
  | (cur, next) :: rest =>
    if lineQualifiesByte next target then
      match gotoByteScan target none (iterCharPositions doc (some cur)) with
      | some sel => some sel
      | none => gotoByteLines doc target rest
    else gotoByteLines doc target rest

/-- `gotoByte` with a numeric target: the selection the command assigns, or
`none` when the loops end without assigning one. -/
def gotoByte (doc : Doc) (target : Nat) : Option Selection :=
  gotoByteLines doc target
    (peeking (iterLineStartPositions doc ⟨false, true⟩))

/-- The inner loop of `gotoChar`: the first record whose char offset reaches
the target is selected as a cursor (the `prevPos` variable is dead code kept
from the source). -/
def gotoCharScan (target : Nat) : Option Pos → List CharInfo → Option Selection
  | _, [] => none
  | prevPos, r :: rest =>
    if target ≤ r.charOffset then some ⟨r.pos, r.pos⟩
    else gotoCharScan target (some r.pos) rest

/-- `!lineInfo.next || lineInfo.next.charOffset > targetOffset`. -/
def lineQualifiesChar (next : Option LineInfo) (target : Nat) : Bool :=
  match next with
  | none => true
  | some ni => decide (target < ni.charOffset)

/-- The outer loop of `gotoChar` over the peeked line table. -/
def gotoCharLines (doc : Doc) (target : Nat) :
    List (LineInfo × Option LineInfo) → Option Selection
  | [] => none
  | (cur, next) :: rest =>
    if lineQualifiesChar next target then
      match gotoCharScan target none (iterCharPositions doc (some cur)) with
      | some sel => some sel
      | none => gotoCharLines doc target rest
    else gotoCharLines doc target rest

/-- `gotoChar` with a numeric target. -/
def gotoChar (doc : Doc) (target : Nat) : Option Selection :=
  gotoCharLines doc target
    (peeking (iterLineStartPositions doc ⟨true, false⟩))

/-- Running offsets (`Offsets`): code-point and UTF-8 byte offset. -/
structure Offsets where
  char : Nat
  byte : Nat
deriving DecidableEq, Repr

/-- One record of the character detail decomposition (`CharDetails`). -/
structure CharDetails where
  char : Units
  byteOffset : Nat
  charOffset : Nat
  codePoint : Nat
  bytes : List Nat
  charCodes : List Nat
deriving DecidableEq, Repr

/-- The loop of `iterCharDetails` over the logical characters, with running
offsets.  A logical `"\n"` renders physically as `"\r\n"` in a CRLF document;
`charCodes` collects the code units of every character of the physical
rendering. -/
def iterCharDetailsAux (eol : Eol) : List Units → Nat → Nat → List CharDetails
  | [], _, _ => []
  | ch :: rest, charOffset, byteOffset =>
    let physicalChars := if ch = [10] ∧ eol = .crlf then [13, 10] else ch
    let bytes := utf8OfUnits physicalChars
    ⟨ch, byteOffset, charOffset, codePointAt0 ch, bytes,
        (jsStringChars physicalChars).flatten⟩ ::
      iterCharDetailsAux eol rest (charOffset + 1) (byteOffset + bytes.length)

/-- `iterCharDetails(text, eol, startOffsets)`. -/
def iterCharDetails (text : Units) (eol : Eol) (startOffsets : Offsets) :
    List CharDetails :=
  iterCharDetailsAux eol (jsStringChars text) startOffsets.char startOffsets.byte

/-- Starting byte offset of line `j`: the line table's accumulated value. -/
def byteStart (doc : Doc) (j : Nat) : Nat :=
  ((doc.lines.take j).map (fun l => utf8Length l + lineEndBytes doc.eol)).sum

/-- Starting char offset of line `j`. -/
def charStart (doc : Doc) (j : Nat) : Nat :=
  ((doc.lines.take j).map (fun l => cpCount l + 1)).sum

/-- Total UTF-8 byte length of the document (terminators between lines,
none after the last line). -/
def totalBytes (doc : Doc) : Nat :=
  byteStart doc (doc.lines.length - 1) + utf8Length (lineText doc (doc.lines.length - 1))

/-- Total logical character count of the document. -/
def totalChars (doc : Doc) : Nat :=
  charStart doc (doc.lines.length - 1) + cpCount (lineText doc (doc.lines.length - 1))

/-- The end-of-document position: end of the last line. -/
def endOfDocumentPos (doc : Doc) : Pos :=
  ⟨doc.lines.length - 1, lineLen doc (doc.lines.length - 1)⟩

/-- The character records of one line's own text from column `col` on, with
positions and running offsets (the per-line part of the character scan). -/
def lineRecsFrom (j : Nat) (line : Units) (col byteOffset charOffset : Nat) :
    List CharInfo :=
  if h : col < line.length then
    let w := if isHighSurrogate (line.getD col 0) then 2 else 1
    let ch := (line.drop col).take w
    ⟨ch, ⟨j, col⟩, byteOffset, charOffset⟩ ::
      lineRecsFrom j line (col + w) (byteOffset + utf8Length ch) (charOffset + 1)
  else []
termination_by line.length - col
decreasing_by
  split <;> omega

/-- A digit value in the given base (0-9, a-f, A-F). -/
def digitVal (base : Nat) (c : Char) : Option Nat :=
  let v : Option Nat :=
    if '0' ≤ c ∧ c ≤ '9' then some (c.toNat - 48)
    else if 'a' ≤ c ∧ c ≤ 'f' then some (c.toNat - 87)
    else if 'A' ≤ c ∧ c ≤ 'F' then some (c.toNat - 55)
    else none
  match v with
  | some d => if d < base then some d else none
  | none => none

/-- Accumulate digits; fails at the first non-digit. -/
def parseNatAux (base : Nat) (acc : Nat) : List Char → Option Nat
  | [] => some acc
  | c :: cs =>
    match digitVal base c with
    | some d => parseNatAux base (acc * base + d) cs
    | none => none

/-- A non-empty all-digit numeral in the given base. -/
def parseNat (base : Nat) : List Char → Option Nat
  | [] => none
  | c :: cs => parseNatAux base 0 (c :: cs)

/-- A decimal integer or a `0x`-prefixed hexadecimal integer. -/
def parseMagnitude : List Char → Option Nat
  | '0' :: 'x' :: rest => parseNat 16 rest
  | cs => parseNat 10 cs

/-- The parsed form of a user-entered offset. -/
structure ParsedOffset where
  isRelative : Bool
  value : Int
deriving DecidableEq, Repr

/-- Modelled from the spec: `parseOffset` is exercised by the repository's
test suite and specified in §4.5, but its implementation is not among the
source files under `src/`.  Per the spec it accepts an optional leading `+`
or `-` (marking the result relative; `-` also negates the value) followed by
a decimal integer or a `0x`-prefixed hexadecimal integer, and fails on
anything else. -/
def parseOffsetChars : List Char → Option ParsedOffset
  | '+' :: rest => (parseMagnitude rest).map (fun v => ⟨true, (v : Int)⟩)
  | '-' :: rest => (parseMagnitude rest).map (fun v => ⟨true, -(v : Int)⟩)
  | cs => (parseMagnitude cs).map (fun v => ⟨false, (v : Int)⟩)

/-- Modelled from the spec: `parseOffset` on a string. -/
def parseOffset (s : String) : Option ParsedOffset :=
  parseOffsetChars s.data

/-! ## Basic facts about code units, decoding and UTF-8 lengths -/

theorem utf8EncodeCp_ne_nil (cp : Nat) : utf8EncodeCp cp ≠ [] := by
  unfold utf8EncodeCp
  split
  · simp
  · split
    · simp
    · split
      · simp
      · split <;> simp

theorem decodeUnits_ne_nil {s : Units} (h : s ≠ []) : decodeUnits s ≠ [] := by
  match s with
  | [] => exact absurd rfl h
  | [c] => simp [decodeUnits]
  | c :: c2 :: rest =>
    unfold decodeUnits
    split
    · split <;> simp
    · simp

theorem utf8Length_pos {s : Units} (h : s ≠ []) : 0 < utf8Length s := by
  unfold utf8Length utf8OfUnits
  match hd : decodeUnits s with
  | [] => exact absurd hd (decodeUnits_ne_nil h)
  | cp :: rest =>
    have : utf8EncodeCp cp ≠ [] := utf8EncodeCp_ne_nil cp
    simp only [List.map_cons, List.flatten_cons, List.length_append]
    have : 0 < (utf8EncodeCp cp).length := List.length_pos.mpr this
    omega

theorem decodeUnits_cons_pair {c c2 : Nat} (rest : Units)
    (hh : isHighSurrogate c = true) (hl : isLowSurrogate c2 = true) :
    decodeUnits (c :: c2 :: rest) = combineSurrogates c c2 :: decodeUnits rest := by
  conv_lhs => unfold decodeUnits
  rw [if_pos hh, if_pos hl]

theorem decodeUnits_cons_single {c : Nat} (rest : Units)
    (hh : isHighSurrogate c = false) :
    decodeUnits (c :: rest) = c :: decodeUnits rest := by
  match rest with
  | [] => rfl
  | c2 :: rest2 =>
    conv_lhs => unfold decodeUnits
    rw [if_neg (by simp [hh])]

theorem utf8OfUnits_cons_single {c : Nat} (rest : Units)
    (hh : isHighSurrogate c = false) :
    utf8OfUnits (c :: rest) = utf8EncodeCp c ++ utf8OfUnits rest := by
  unfold utf8OfUnits
  rw [decodeUnits_cons_single rest hh]
  simp

theorem utf8OfUnits_cons_pair {c c2 : Nat} (rest : Units)
    (hh : isHighSurrogate c = true) (hl : isLowSurrogate c2 = true) :
    utf8OfUnits (c :: c2 :: rest) =
      utf8EncodeCp (combineSurrogates c c2) ++ utf8OfUnits rest := by
  unfold utf8OfUnits
  rw [decodeUnits_cons_pair rest hh hl]
  simp

theorem utf8Length_cons_single {c : Nat} (rest : Units)
    (hh : isHighSurrogate c = false) :
    utf8Length (c :: rest) = (utf8EncodeCp c).length + utf8Length rest := by
  unfold utf8Length
  rw [utf8OfUnits_cons_single rest hh]
  simp

theorem utf8Length_cons_pair {c c2 : Nat} (rest : Units)
    (hh : isHighSurrogate c = true) (hl : isLowSurrogate c2 = true) :
    utf8Length (c :: c2 :: rest) =
      (utf8EncodeCp (combineSurrogates c c2)).length + utf8Length rest := by
  unfold utf8Length
  rw [utf8OfUnits_cons_pair rest hh hl]
  simp

theorem cpCount_cons_single {c : Nat} (rest : Units)
    (hh : isHighSurrogate c = false) :
    cpCount (c :: rest) = 1 + cpCount rest := by
  unfold cpCount
  rw [decodeUnits_cons_single rest hh]
  simp [Nat.add_comm]

theorem cpCount_cons_pair {c c2 : Nat} (rest : Units)
    (hh : isHighSurrogate c = true) (hl : isLowSurrogate c2 = true) :
    cpCount (c :: c2 :: rest) = 1 + cpCount rest := by
  unfold cpCount
  rw [decodeUnits_cons_pair rest hh hl]
  simp [Nat.add_comm]

theorem wfUnits_cons_high {c : Nat} {rest : Units}
    (hh : isHighSurrogate c = true) (hwf : wfUnits (c :: rest) = true) :
    ∃ c2 rest2, rest = c2 :: rest2 ∧ isLowSurrogate c2 = true ∧
      wfUnits rest2 = true := by
  match rest with
  | [] =>
    unfold wfUnits at hwf
    rw [hh] at hwf
    simp at hwf
  | c2 :: rest2 =>
    unfold wfUnits at hwf
    rw [if_pos hh] at hwf
    simp only [Bool.and_eq_true] at hwf
    exact ⟨c2, rest2, rfl, hwf.1, hwf.2⟩

theorem wfUnits_cons_not_high {c : Nat} {rest : Units}
    (hh : isHighSurrogate c = false) (hwf : wfUnits (c :: rest) = true) :
    c < 0x10000 ∧ isLowSurrogate c = false ∧ wfUnits rest = true := by
  match rest with
  | [] =>
    unfold wfUnits at hwf
    rw [hh] at hwf
    simp only [Bool.not_false, Bool.true_and, Bool.and_eq_true,
      decide_eq_true_eq, Bool.not_eq_true'] at hwf
    exact ⟨hwf.1, hwf.2, rfl⟩
  | c2 :: rest2 =>
    unfold wfUnits at hwf
    rw [if_neg (by simp [hh])] at hwf
    simp only [Bool.and_eq_true, Bool.not_eq_true', decide_eq_true_eq] at hwf
    exact ⟨hwf.1.1, hwf.1.2, hwf.2⟩

/-! ## Facts about `advancePosition` -/

theorem advance_oor {doc : Doc} {j col count : Nat}
    (h : doc.lines.get? j = none) :
    advancePosition ⟨j, col⟩ doc count = none := by
  unfold advancePosition
  rw [h]

theorem advance_col_high {doc : Doc} {j col : Nat} {line : Units}
    (hline : doc.lines.get? j = some line) (hcol : col < line.length)
    (hh : isHighSurrogate (line.getD col 0) = true) :
    advancePosition ⟨j, col⟩ doc 1 = some ⟨j, col + 2⟩ := by
  unfold advancePosition
  rw [hline]
  unfold advanceLoop
  dsimp only
  rw [if_neg (by omega), if_pos hh]
  rfl

theorem advance_col_low {doc : Doc} {j col : Nat} {line : Units}
    (hline : doc.lines.get? j = some line) (hcol : col < line.length)
    (hh : isHighSurrogate (line.getD col 0) = false) :
    advancePosition ⟨j, col⟩ doc 1 = some ⟨j, col + 1⟩ := by
  unfold advancePosition
  rw [hline]
  unfold advanceLoop
  dsimp only
  rw [if_neg (by omega), if_neg (by rw [hh]; simp)]
  rfl

theorem advance_col {doc : Doc} {j col : Nat} {line : Units}
    (hline : doc.lines.get? j = some line) (hcol : col < line.length) :
    advancePosition ⟨j, col⟩ doc 1 =
      some ⟨j, col + (if isHighSurrogate (line.getD col 0) then 2 else 1)⟩ := by
  by_cases hh : isHighSurrogate (line.getD col 0) = true
  · rw [advance_col_high hline hcol hh, if_pos hh]
  · have hh2 : isHighSurrogate (line.getD col 0) = false := by
      simp only [Bool.not_eq_true] at hh
      exact hh
    rw [advance_col_low hline hcol hh2, if_neg hh]

theorem advance_eol {doc : Doc} {j col : Nat} {line line2 : Units}
    (hline : doc.lines.get? j = some line) (hcol : line.length ≤ col)
    (hnext : doc.lines.get? (j + 1) = some line2) :
    advancePosition ⟨j, col⟩ doc 1 = some ⟨j + 1, 0⟩ := by
  unfold advancePosition
  rw [hline]
  unfold advanceLoop
  rw [if_pos hcol, hnext]
  rfl

theorem advance_end {doc : Doc} {j col : Nat} {line : Units}
    (hline : doc.lines.get? j = some line) (hcol : line.length ≤ col)
    (hnext : doc.lines.get? (j + 1) = none) :
    advancePosition ⟨j, col⟩ doc 1 = none := by
  unfold advancePosition
  rw [hline]
  unfold advanceLoop
  rw [if_pos hcol, hnext]

theorem advance_one_cases {doc : Doc} {pos next : Pos}
    (h : advancePosition pos doc 1 = some next) :
    ∃ line, doc.lines.get? pos.line = some line ∧
      ((pos.col < line.length ∧
          next = ⟨pos.line,
            pos.col + (if isHighSurrogate (line.getD pos.col 0) then 2 else 1)⟩) ∨
       (line.length ≤ pos.col ∧ next = ⟨pos.line + 1, 0⟩ ∧
          doc.lines.get? (pos.line + 1) ≠ none)) := by
  match hline : doc.lines.get? pos.line with
  | none =>
    rw [show pos = ⟨pos.line, pos.col⟩ from rfl, advance_oor hline] at h
    exact absurd h (by simp)
  | some line =>
    refine ⟨line, rfl, ?_⟩
    by_cases hcol : pos.col < line.length
    · left
      refine ⟨hcol, ?_⟩
      rw [show pos = ⟨pos.line, pos.col⟩ from rfl, advance_col hline hcol] at h
      exact (Option.some_injective _ h).symm
    · right
      match hnext : doc.lines.get? (pos.line + 1) with
      | none =>
        rw [show pos = ⟨pos.line, pos.col⟩ from rfl,
          advance_end hline (by omega) hnext] at h
        exact absurd h (by simp)
      | some line2 =>
        rw [show pos = ⟨pos.line, pos.col⟩ from rfl,
          advance_eol hline (by omega) hnext] at h
        exact ⟨by omega, (Option.some_injective _ h).symm, by simp [hnext]⟩

/-! ## Facts about `getTextRange` -/

theorem get?_lt_length {α : Type} {l : List α} {j : Nat} {a : α}
    (h : l.get? j = some a) : j < l.length := by
  by_contra hn
  rw [List.get?_eq_none.mpr (by omega)] at h
  exact absurd h (by simp)

theorem lineText_eq {doc : Doc} {j : Nat} {line : Units}
    (hline : doc.lines.get? j = some line) : lineText doc j = line := by
  unfold lineText
  rw [hline]
  rfl

theorem lineLen_eq {doc : Doc} {j : Nat} {line : Units}
    (hline : doc.lines.get? j = some line) : lineLen doc j = line.length := by
  unfold lineLen
  rw [lineText_eq hline]

theorem clampPos_eq {doc : Doc} {j : Nat} (hj : j < doc.lines.length)
    (col : Nat) : clampPos doc ⟨j, col⟩ = ⟨j, min col (lineLen doc j)⟩ := by
  unfold clampPos
  rw [if_pos hj]

theorem getTextRange_within {doc : Doc} {j col : Nat} {line : Units}
    (hline : doc.lines.get? j = some line) (hcol : col < line.length)
    (w : Nat) :
    getTextRange doc ⟨j, col⟩ ⟨j, col + w⟩ = (line.drop col).take w := by
  have hj : j < doc.lines.length := get?_lt_length hline
  unfold getTextRange
  rw [clampPos_eq hj col, clampPos_eq hj (col + w)]
  dsimp only
  rw [if_pos rfl, lineText_eq hline, lineLen_eq hline]
  rw [Nat.min_eq_left (by omega), List.drop_take]
  by_cases h2 : col + w ≤ line.length
  · rw [Nat.min_eq_left h2]
    congr 1
    omega
  · rw [Nat.min_eq_right (by omega)]
    rw [List.take_of_length_le (by simp), List.take_of_length_le (by simp; omega)]

theorem getTextRange_term {doc : Doc} {j col : Nat}
    (hj1 : j + 1 < doc.lines.length) (hcol : lineLen doc j ≤ col) :
    getTextRange doc ⟨j, col⟩ ⟨j + 1, 0⟩ = termUnits doc.eol := by
  have hj : j < doc.lines.length := by omega
  unfold getTextRange
  rw [clampPos_eq hj col, clampPos_eq hj1 0]
  dsimp only
  rw [if_neg (by omega), if_pos (by omega)]
  have h0 : j + 1 - j - 1 = 0 := by omega
  rw [Nat.min_eq_right hcol, h0]
  simp [lineLen, List.drop_length]

theorem termUnits_ne_nil (eol : Eol) : termUnits eol ≠ [] := by
  cases eol <;> simp [termUnits]

theorem utf8Length_term (eol : Eol) :
    utf8Length (termUnits eol) = lineEndBytes eol := by
  cases eol <;> rfl

/-! ## The fuel of the character scan is sufficient -/

theorem tailUnits_eq {doc : Doc} {j : Nat} {line : Units}
    (hline : doc.lines.get? j = some line) :
    tailUnits doc j = line.length + 2 + tailUnits doc (j + 1) := by
  have hj : j < doc.lines.length := get?_lt_length hline
  obtain ⟨h, hget⟩ := List.get?_eq_some.mp hline
  unfold tailUnits
  rw [List.drop_eq_getElem_cons hj]
  have hl : doc.lines[j] = line := hget
  rw [hl]
  simp

theorem posMeasure_lt {doc : Doc} {pos next : Pos}
    (h : advancePosition pos doc 1 = some next) :
    posMeasure doc next < posMeasure doc pos := by
  obtain ⟨line, hline, hcase⟩ := advance_one_cases h
  have hll : lineLen doc pos.line = line.length := lineLen_eq hline
  have htail := tailUnits_eq hline
  rcases hcase with ⟨hcol, hnext⟩ | ⟨hcol, hnext, hsome⟩
  · subst hnext
    unfold posMeasure
    dsimp only
    rw [hll, htail]
    have hw1 : 1 ≤ (if isHighSurrogate (line.getD pos.col 0) then 2 else 1) := by
      split <;> omega
    have hw2 : (if isHighSurrogate (line.getD pos.col 0) then 2 else 1) ≤ 2 := by
      split <;> omega
    omega
  · subst hnext
    unfold posMeasure
    dsimp only
    rw [hll, htail]
    omega

theorem iterCharAux_congr (doc : Doc) :
    ∀ f1 f2 pos b c, posMeasure doc pos < f1 → posMeasure doc pos < f2 →
      iterCharAux doc f1 pos b c = iterCharAux doc f2 pos b c := by
  intro f1
  induction f1 using Nat.strong_induction_on with
  | _ f1 ih =>
    intro f2 pos b c h1 h2
    match f1, h1 with
    | ff + 1, h1 =>
    match f2, h2 with
    | gg + 1, h2 =>
    unfold iterCharAux
    cases hadv : advancePosition pos doc 1 with
    | none => rfl
    | some next =>
      have hd := posMeasure_lt hadv
      dsimp only
      congr 1
      exact ih ff (by omega) gg next _ _ (by omega) (by omega)

theorem iterCharAux_eq_from {doc : Doc} {fuel : Nat} {pos : Pos}
    (h : posMeasure doc pos < fuel) (b c : Nat) :
    iterCharAux doc fuel pos b c = iterCharFrom doc pos b c :=
  iterCharAux_congr doc fuel (posMeasure doc pos + 1) pos b c h (by omega)

theorem iterCharFrom_stop {doc : Doc} {pos : Pos}
    (h : advancePosition pos doc 1 = none) (b c : Nat) :
    iterCharFrom doc pos b c = [⟨[], pos, b, c⟩] := by
  unfold iterCharFrom iterCharAux
  rw [h]

theorem iterCharFrom_step {doc : Doc} {pos next : Pos}
    (h : advancePosition pos doc 1 = some next) (b c : Nat) :
    iterCharFrom doc pos b c =
      ⟨getTextRange doc pos next, pos, b, c⟩ ::
        iterCharFrom doc next (b + utf8Length (getTextRange doc pos next)) (c + 1) := by
  have hd := posMeasure_lt h
  unfold iterCharFrom
  conv_lhs => unfold iterCharAux
  rw [h]
  dsimp only
  congr 1
  exact iterCharAux_congr doc (posMeasure doc pos) (posMeasure doc next + 1)
    next _ _ (by omega) (by omega)

/-! ## Generic facts about the character scan list -/

theorem getTextRange_adv_ne_nil {doc : Doc} {pos next : Pos}
    (h : advancePosition pos doc 1 = some next) :
    getTextRange doc pos next ≠ [] := by
  obtain ⟨pl, pc⟩ := pos
  obtain ⟨line, hline, hcase⟩ := advance_one_cases h
  dsimp only at hcase
  rcases hcase with ⟨hcol, hnext⟩ | ⟨hcol, hnext, hsome⟩
  · subst hnext
    rw [getTextRange_within hline hcol]
    have h1 : line.drop pc ≠ [] := by
      simp only [ne_eq, List.drop_eq_nil_iff]
      omega
    have h2 : (1 : Nat) ≤ if isHighSurrogate (line.getD pc 0) then 2 else 1 := by
      split <;> omega
    simp only [ne_eq, List.take_eq_nil_iff]
    rintro (h3 | h3)
    · omega
    · exact h1 h3
  · subst hnext
    match hnext2 : doc.lines.get? (pl + 1) with
    | none => exact absurd hnext2 hsome
    | some line2 =>
      rw [getTextRange_term (get?_lt_length hnext2) (by rw [lineLen_eq hline]; omega)]
      exact termUnits_ne_nil doc.eol

theorem iterCharAux_head {doc : Doc} :
    ∀ {fuel : Nat} {pos : Pos} {b c : Nat} {r : CharInfo},
      (iterCharAux doc fuel pos b c).get? 0 = some r →
      r.byteOffset = b ∧ r.charOffset = c ∧ r.pos = pos := by
  intro fuel pos b c r h
  match fuel with
  | 0 => simp [iterCharAux] at h
  | ff + 1 =>
    unfold iterCharAux at h
    cases hadv : advancePosition pos doc 1 with
    | none =>
      rw [hadv] at h
      simp only [List.get?_cons_zero, Option.some_inj] at h
      subst h
      exact ⟨rfl, rfl, rfl⟩
    | some next =>
      rw [hadv] at h
      simp only [List.get?_cons_zero, Option.some_inj] at h
      subst h
      exact ⟨rfl, rfl, rfl⟩

theorem iterCharAux_charOffset {doc : Doc} :
    ∀ fuel pos b c i (r : CharInfo),
      (iterCharAux doc fuel pos b c).get? i = some r → r.charOffset = c + i := by
  intro fuel
  induction fuel with
  | zero => intro pos b c i r h; simp [iterCharAux] at h
  | succ ff ih =>
    intro pos b c i r h
    unfold iterCharAux at h
    cases hadv : advancePosition pos doc 1 with
    | none =>
      rw [hadv] at h
      match i with
      | 0 =>
        simp only [List.get?_cons_zero, Option.some_inj] at h
        subst h
        rfl
      | i2 + 1 => simp at h
    | some next =>
      rw [hadv] at h
      match i with
      | 0 =>
        simp only [List.get?_cons_zero, Option.some_inj] at h
        subst h
        rfl
      | i2 + 1 =>
        simp only [List.get?_cons_succ] at h
        have := ih next _ _ i2 r h
        omega

theorem iterCharAux_byte_succ {doc : Doc} :
    ∀ fuel pos b c i (r1 r2 : CharInfo),
      (iterCharAux doc fuel pos b c).get? i = some r1 →
      (iterCharAux doc fuel pos b c).get? (i + 1) = some r2 →
      r2.byteOffset = r1.byteOffset + utf8Length r1.char ∧ r1.char ≠ [] := by
  intro fuel
  induction fuel with
  | zero => intro pos b c i r1 r2 h1 h2; simp [iterCharAux] at h1
  | succ ff ih =>
    intro pos b c i r1 r2 h1 h2
    unfold iterCharAux at h1 h2
    cases hadv : advancePosition pos doc 1 with
    | none =>
      rw [hadv] at h1 h2
      match i with
      | 0 => simp at h2
      | i2 + 1 => simp at h1
    | some next =>
      rw [hadv] at h1 h2
      match i with
      | 0 =>
        simp only [List.get?_cons_zero, Option.some_inj] at h1
        simp only [List.get?_cons_succ] at h2
        subst h1
        obtain ⟨hb, -, -⟩ := iterCharAux_head h2
        exact ⟨hb, getTextRange_adv_ne_nil hadv⟩
      | i2 + 1 =>
        simp only [List.get?_cons_succ] at h1 h2
        exact ih next _ _ i2 r1 r2 h1 h2

theorem get?_some_of_le {α : Type} {l : List α} {m k : Nat} {r : α}
    (h : l.get? k = some r) (hm : m ≤ k) : ∃ r2, l.get? m = some r2 := by
  have hk : k < l.length := get?_lt_length h
  exact ⟨l.get ⟨m, by omega⟩, List.get?_eq_get (by omega)⟩

theorem iterCharAux_byte_mono {doc : Doc} {fuel : Nat} {pos : Pos} {b c : Nat} :
    ∀ (d i : Nat) (r1 r2 : CharInfo),
      (iterCharAux doc fuel pos b c).get? i = some r1 →
      (iterCharAux doc fuel pos b c).get? (i + d + 1) = some r2 →
      r1.byteOffset < r2.byteOffset := by
  intro d
  induction d with
  | zero =>
    intro i r1 r2 h1 h2
    obtain ⟨hb, hne⟩ := iterCharAux_byte_succ fuel pos b c i r1 r2 h1 h2
    have := utf8Length_pos hne
    omega
  | succ dd ih =>
    intro i r1 r2 h1 h2
    obtain ⟨rm, hm⟩ := get?_some_of_le h2 (show i + dd + 1 ≤ i + (dd + 1) + 1 by omega)
    have hlt1 := ih i r1 rm h1 hm
    obtain ⟨hb, hne⟩ := iterCharAux_byte_succ fuel pos b c (i + dd + 1) rm r2 hm
      (by rw [show i + dd + 1 + 1 = i + (dd + 1) + 1 by omega]; exact h2)
    have := utf8Length_pos hne
    omega

theorem iterCharAux_shift {doc : Doc} :
    ∀ fuel pos b c,
      iterCharAux doc fuel pos b c =
        (iterCharAux doc fuel pos 0 0).map
          (fun r => ⟨r.char, r.pos, r.byteOffset + b, r.charOffset + c⟩) := by
  intro fuel
  induction fuel with
  | zero => intro pos b c; simp [iterCharAux]
  | succ ff ih =>
    intro pos b c
    unfold iterCharAux
    cases hadv : advancePosition pos doc 1 with
    | none => simp
    | some next =>
      dsimp only
      simp only [List.map_cons]
      congr 1
      · simp
      · rw [ih next (b + utf8Length (getTextRange doc pos next)) (c + 1),
          ih next (0 + utf8Length (getTextRange doc pos next)) (0 + 1),
          List.map_map]
        congr 1
        funext r
        simp only [Function.comp_apply, CharInfo.mk.injEq, true_and]
        omega

/-! ## The per-line decomposition of the character scan -/

theorem lineRecsFrom_nil {j col b c : Nat} {line : Units}
    (h : ¬ col < line.length) : lineRecsFrom j line col b c = [] := by
  rw [lineRecsFrom, dif_neg h]

theorem lineRecsFrom_high {j col b c : Nat} {line : Units}
    (hcol : col < line.length) (hh : isHighSurrogate (line.getD col 0) = true) :
    lineRecsFrom j line col b c =
      ⟨(line.drop col).take 2, ⟨j, col⟩, b, c⟩ ::
        lineRecsFrom j line (col + 2)
          (b + utf8Length ((line.drop col).take 2)) (c + 1) := by
  conv_lhs => rw [lineRecsFrom]
  rw [dif_pos hcol]
  simp only [hh, if_pos]

theorem lineRecsFrom_low {j col b c : Nat} {line : Units}
    (hcol : col < line.length) (hh : isHighSurrogate (line.getD col 0) = false) :
    lineRecsFrom j line col b c =
      ⟨(line.drop col).take 1, ⟨j, col⟩, b, c⟩ ::
        lineRecsFrom j line (col + 1)
          (b + utf8Length ((line.drop col).take 1)) (c + 1) := by
  conv_lhs => rw [lineRecsFrom]
  rw [dif_pos hcol]
  simp only [hh]
  simp

theorem head_of_drop {line : Units} {col : Nat} {u : Nat} {rest : Units}
    (h : line.drop col = u :: rest) : line.getD col 0 = u := by
  have h1 : (line.drop col).head? = some u := by
    rw [h]
    rfl
  rw [List.head?_drop] at h1
  simp [List.getD, h1]

theorem utf8Length_nil : utf8Length [] = 0 := rfl

theorem cpCount_nil : cpCount [] = 0 := rfl

theorem iterCharFrom_within (doc : Doc) {j : Nat} {line : Units}
    (hline : doc.lines.get? j = some line) :
    ∀ n col b c, line.length - col ≤ n → col ≤ line.length →
      wfUnits (line.drop col) = true →
      iterCharFrom doc ⟨j, col⟩ b c =
        lineRecsFrom j line col b c ++
          iterCharFrom doc ⟨j, line.length⟩ (b + utf8Length (line.drop col))
            (c + cpCount (line.drop col)) := by
  intro n
  induction n with
  | zero =>
    intro col b c h1 h2 hwf
    have hc : col = line.length := by omega
    subst hc
    rw [lineRecsFrom_nil (by omega), List.drop_length, utf8Length_nil, cpCount_nil]
    simp
  | succ nn ih =>
    intro col b c h1 h2 hwf
    by_cases hcol : col < line.length
    · cases hdc : line.drop col with
      | nil =>
        exfalso
        rw [List.drop_eq_nil_iff] at hdc
        omega
      | cons u rest1 =>
        have hu : line.getD col 0 = u := head_of_drop hdc
        have hdl : (line.drop col).length = line.length - col := by simp
        by_cases hh : isHighSurrogate u = true
        · rw [hdc] at hwf
          obtain ⟨lo, rest2, hrest, hlo, hwf2⟩ := wfUnits_cons_high hh hwf
          subst hrest
          have hadv := advance_col_high hline hcol (by rw [hu]; exact hh)
          rw [iterCharFrom_step hadv, getTextRange_within hline hcol 2, hdc]
          have htake : (u :: lo :: rest2).take 2 = [u, lo] := rfl
          rw [htake]
          have hdrop2 : line.drop (col + 2) = rest2 := by
            have : (line.drop col).drop 2 = line.drop (col + 2) :=
              List.drop_drop 2 col line
            rw [← this, hdc]
            rfl
          have hcol2 : col + 2 ≤ line.length := by
            rw [hdc] at hdl
            simp at hdl
            omega
          rw [ih (col + 2) (b + utf8Length [u, lo]) (c + 1) (by omega) hcol2
            (by rw [hdrop2]; exact hwf2)]
          rw [lineRecsFrom_high hcol (by rw [hu]; exact hh), hdc, htake, hdrop2]
          have hL2 : utf8Length [u, lo] =
              (utf8EncodeCp (combineSurrogates u lo)).length := by
            rw [utf8Length_cons_pair ([] : Units) hh hlo, utf8Length_nil]
            omega
          have hLall : utf8Length (u :: lo :: rest2) =
              (utf8EncodeCp (combineSurrogates u lo)).length + utf8Length rest2 :=
            utf8Length_cons_pair rest2 hh hlo
          have hCall : cpCount (u :: lo :: rest2) = 1 + cpCount rest2 :=
            cpCount_cons_pair rest2 hh hlo
          have e1 : b + utf8Length [u, lo] + utf8Length rest2
              = b + utf8Length (u :: lo :: rest2) := by omega
          have e2 : c + 1 + cpCount rest2 = c + cpCount (u :: lo :: rest2) := by
            omega
          rw [List.cons_append, e1, e2]
        · have hh2 : isHighSurrogate u = false := by
            simp only [Bool.not_eq_true] at hh
            exact hh
          rw [hdc] at hwf
          obtain ⟨hu16, hul, hwf2⟩ := wfUnits_cons_not_high hh2 hwf
          have hadv := advance_col_low hline hcol (by rw [hu]; exact hh2)
          rw [iterCharFrom_step hadv, getTextRange_within hline hcol 1, hdc]
          have htake : (u :: rest1).take 1 = [u] := rfl
          rw [htake]
          have hdrop1 : line.drop (col + 1) = rest1 := by
            have : (line.drop col).drop 1 = line.drop (col + 1) :=
              List.drop_drop 1 col line
            rw [← this, hdc]
            rfl
          have hcol1 : col + 1 ≤ line.length := by omega
          rw [ih (col + 1) (b + utf8Length [u]) (c + 1) (by omega) hcol1
            (by rw [hdrop1]; exact hwf2)]
          rw [lineRecsFrom_low hcol (by rw [hu]; exact hh2), hdc, htake, hdrop1]
          have hL1 : utf8Length [u] = (utf8EncodeCp u).length := by
            rw [utf8Length_cons_single ([] : Units) hh2, utf8Length_nil]
            omega
          have hLall : utf8Length (u :: rest1) =
              (utf8EncodeCp u).length + utf8Length rest1 :=
            utf8Length_cons_single rest1 hh2
          have hCall : cpCount (u :: rest1) = 1 + cpCount rest1 :=
            cpCount_cons_single rest1 hh2
          have e1 : b + utf8Length [u] + utf8Length rest1
              = b + utf8Length (u :: rest1) := by omega
          have e2 : c + 1 + cpCount rest1 = c + cpCount (u :: rest1) := by omega
          rw [List.cons_append, e1, e2]
    · have hc : col = line.length := by omega
      subst hc
      rw [lineRecsFrom_nil (by omega), List.drop_length, utf8Length_nil, cpCount_nil]
      simp

theorem lineRecsFrom_length (j : Nat) (line : Units) :
    ∀ n col b c, line.length - col ≤ n → wfUnits (line.drop col) = true →
      (lineRecsFrom j line col b c).length = cpCount (line.drop col) := by
  intro n
  induction n with
  | zero =>
    intro col b c h1 hwf
    have hc : line.length ≤ col := by omega
    rw [lineRecsFrom_nil (by omega), List.drop_eq_nil_iff.mpr (by omega), cpCount_nil]
    rfl
  | succ nn ih =>
    intro col b c h1 hwf
    by_cases hcol : col < line.length
    · cases hdc : line.drop col with
      | nil =>
        exfalso
        rw [List.drop_eq_nil_iff] at hdc
        omega
      | cons u rest1 =>
        have hu : line.getD col 0 = u := head_of_drop hdc
        have hdl : (line.drop col).length = line.length - col := by simp
        by_cases hh : isHighSurrogate u = true
        · rw [hdc] at hwf
          obtain ⟨lo, rest2, hrest, hlo, hwf2⟩ := wfUnits_cons_high hh hwf
          subst hrest
          have hdrop2 : line.drop (col + 2) = rest2 := by
            have : (line.drop col).drop 2 = line.drop (col + 2) :=
              List.drop_drop 2 col line
            rw [← this, hdc]
            rfl
          rw [lineRecsFrom_high hcol (by rw [hu]; exact hh)]
          rw [hdc] at hdl
          simp only [List.length_cons] at hdl
          rw [List.length_cons]
          rw [ih (col + 2) _ _ (by omega) (by rw [hdrop2]; exact hwf2)]
          rw [hdrop2]
          rw [cpCount_cons_pair rest2 hh hlo]
          omega
        · have hh2 : isHighSurrogate u = false := by
            simp only [Bool.not_eq_true] at hh
            exact hh
          rw [hdc] at hwf
          obtain ⟨-, -, hwf2⟩ := wfUnits_cons_not_high hh2 hwf
          have hdrop1 : line.drop (col + 1) = rest1 := by
            have : (line.drop col).drop 1 = line.drop (col + 1) :=
              List.drop_drop 1 col line
            rw [← this, hdc]
            rfl
          rw [lineRecsFrom_low hcol (by rw [hu]; exact hh2)]
          rw [List.length_cons]
          rw [ih (col + 1) _ _ (by omega) (by rw [hdrop1]; exact hwf2)]
          rw [hdrop1]
          rw [cpCount_cons_single rest1 hh2]
          omega
    · rw [lineRecsFrom_nil hcol, List.drop_eq_nil_iff.mpr (by omega), cpCount_nil]
      rfl

theorem iterCharFrom_lineStep (doc : Doc) {j : Nat} {line line2 : Units}
    (hline : doc.lines.get? j = some line)
    (hnext : doc.lines.get? (j + 1) = some line2)
    (hwf : wfUnits line = true) (b c : Nat) :
    iterCharFrom doc ⟨j, 0⟩ b c =
      lineRecsFrom j line 0 b c ++
        ⟨termUnits doc.eol, ⟨j, line.length⟩, b + utf8Length line,
            c + cpCount line⟩ ::
          iterCharFrom doc ⟨j + 1, 0⟩
            (b + utf8Length line + lineEndBytes doc.eol)
            (c + cpCount line + 1) := by
  rw [iterCharFrom_within doc hline line.length 0 b c (by omega) (by omega)
    (by rw [List.drop_zero]; exact hwf), List.drop_zero]
  have hadv := advance_eol hline (Nat.le_refl line.length) hnext
  rw [iterCharFrom_step hadv,
    getTextRange_term (get?_lt_length hnext) (by rw [lineLen_eq hline]),
    utf8Length_term]

theorem iterCharFrom_lastLine (doc : Doc) {j : Nat} {line : Units}
    (hline : doc.lines.get? j = some line)
    (hnone : doc.lines.get? (j + 1) = none)
    (hwf : wfUnits line = true) (b c : Nat) :
    iterCharFrom doc ⟨j, 0⟩ b c =
      lineRecsFrom j line 0 b c ++
        [⟨[], ⟨j, line.length⟩, b + utf8Length line, c + cpCount line⟩] := by
  rw [iterCharFrom_within doc hline line.length 0 b c (by omega) (by omega)
    (by rw [List.drop_zero]; exact hwf), List.drop_zero]
  rw [iterCharFrom_stop (advance_end hline (Nat.le_refl _) hnone)]

/-! ## Line table facts -/

theorem lineText_get {doc : Doc} {k : Nat} (hk : k < doc.lines.length) :
    lineText doc k = doc.lines.get ⟨k, hk⟩ := by
  unfold lineText
  rw [List.get?_eq_get hk]
  rfl

theorem byteStart_succ {doc : Doc} {j : Nat} {line : Units}
    (hline : doc.lines.get? j = some line) :
    byteStart doc (j + 1) =
      byteStart doc j + utf8Length line + lineEndBytes doc.eol := by
  unfold byteStart
  rw [List.take_succ]
  have hg : doc.lines[j]? = some line := by
    rw [← List.get?_eq_getElem?]
    exact hline
  rw [hg]
  simp
  try omega

theorem charStart_succ {doc : Doc} {j : Nat} {line : Units}
    (hline : doc.lines.get? j = some line) :
    charStart doc (j + 1) = charStart doc j + cpCount line + 1 := by
  unfold charStart
  rw [List.take_succ]
  have hg : doc.lines[j]? = some line := by
    rw [← List.get?_eq_getElem?]
    exact hline
  rw [hg]
  simp
  try omega

theorem iterLineStartAux_drop {doc : Doc} (opts : LineIterOptions) {k : Nat}
    (hk : k < doc.lines.length) (B C : Nat) :
    iterLineStartAux doc.eol opts (doc.lines.drop k) k B C =
      ⟨lineText doc k, ⟨k, 0⟩, B, C⟩ ::
        iterLineStartAux doc.eol opts (doc.lines.drop (k + 1)) (k + 1)
          (if opts.omitByteOffset then B
           else B + utf8Length (lineText doc k) + lineEndBytes doc.eol)
          (if opts.omitCharOffset then C
           else C + cpCount (lineText doc k) + 1) := by
  rw [List.drop_eq_getElem_cons hk]
  rw [lineText_get hk]
  rfl

/-! ## Correspondence between per-line scans and the whole-document scan -/

theorem iterCharFrom_shift (doc : Doc) (pos : Pos) (b c : Nat) :
    iterCharFrom doc pos b c =
      (iterCharFrom doc pos 0 0).map
        (fun r => ⟨r.char, r.pos, r.byteOffset + b, r.charOffset + c⟩) :=
  iterCharAux_shift (posMeasure doc pos + 1) pos b c

theorem lineStart_corr (doc : Doc) (hwf : WfDoc doc) :
    ∀ j, j < doc.lines.length →
      iterCharFrom doc ⟨j, 0⟩ (byteStart doc j) (charStart doc j) =
        (iterCharFrom doc ⟨0, 0⟩ 0 0).drop (charStart doc j) := by
  intro j
  induction j with
  | zero =>
    intro h
    have hb : byteStart doc 0 = 0 := rfl
    have hc : charStart doc 0 = 0 := rfl
    rw [hb, hc, List.drop_zero]
  | succ k ih =>
    intro hk1
    have hk : k < doc.lines.length := by omega
    have hlineK : doc.lines.get? k = some (doc.lines.get ⟨k, hk⟩) :=
      List.get?_eq_get hk
    have hlineK1 : doc.lines.get? (k + 1) = some (doc.lines.get ⟨k + 1, hk1⟩) :=
      List.get?_eq_get hk1
    have hwfK : wfUnits (doc.lines.get ⟨k, hk⟩) = true :=
      hwf.2 _ (doc.lines.get_mem _ _)
    have hstep := iterCharFrom_lineStep doc hlineK hlineK1 hwfK
      (byteStart doc k) (charStart doc k)
    rw [ih hk] at hstep
    have hlen : (lineRecsFrom k (doc.lines.get ⟨k, hk⟩) 0 (byteStart doc k)
        (charStart doc k)).length = cpCount (doc.lines.get ⟨k, hk⟩) := by
      have h2 := lineRecsFrom_length k (doc.lines.get ⟨k, hk⟩)
        (doc.lines.get ⟨k, hk⟩).length 0 (byteStart doc k) (charStart doc k)
        (by omega) (by rw [List.drop_zero]; exact hwfK)
      rw [List.drop_zero] at h2
      exact h2
    rw [byteStart_succ hlineK, charStart_succ hlineK]
    have hdd : (iterCharFrom doc ⟨0, 0⟩ 0 0).drop
        (charStart doc k + cpCount (doc.lines.get ⟨k, hk⟩) + 1) =
        ((iterCharFrom doc ⟨0, 0⟩ 0 0).drop (charStart doc k)).drop
          (cpCount (doc.lines.get ⟨k, hk⟩) + 1) := by
      rw [List.drop_drop]
      have harith : charStart doc k + cpCount (doc.lines.get ⟨k, hk⟩) + 1 =
          charStart doc k + (cpCount (doc.lines.get ⟨k, hk⟩) + 1) := by omega
      rw [harith]
    rw [hdd, hstep]
    have hassoc :
        lineRecsFrom k (doc.lines.get ⟨k, hk⟩) 0 (byteStart doc k)
            (charStart doc k) ++
          (⟨termUnits doc.eol, ⟨k, (doc.lines.get ⟨k, hk⟩).length⟩,
              byteStart doc k + utf8Length (doc.lines.get ⟨k, hk⟩),
              charStart doc k + cpCount (doc.lines.get ⟨k, hk⟩)⟩ :
            CharInfo) ::
          iterCharFrom doc ⟨k + 1, 0⟩
            (byteStart doc k + utf8Length (doc.lines.get ⟨k, hk⟩) +
              lineEndBytes doc.eol)
            (charStart doc k + cpCount (doc.lines.get ⟨k, hk⟩) + 1) =
        (lineRecsFrom k (doc.lines.get ⟨k, hk⟩) 0 (byteStart doc k)
            (charStart doc k) ++
          [⟨termUnits doc.eol, ⟨k, (doc.lines.get ⟨k, hk⟩).length⟩,
              byteStart doc k + utf8Length (doc.lines.get ⟨k, hk⟩),
              charStart doc k + cpCount (doc.lines.get ⟨k, hk⟩)⟩]) ++
          iterCharFrom doc ⟨k + 1, 0⟩
            (byteStart doc k + utf8Length (doc.lines.get ⟨k, hk⟩) +
              lineEndBytes doc.eol)
            (charStart doc k + cpCount (doc.lines.get ⟨k, hk⟩) + 1) := by
      simp
    rw [hassoc]
    have hlen2 : (lineRecsFrom k (doc.lines.get ⟨k, hk⟩) 0 (byteStart doc k)
          (charStart doc k) ++
        [(⟨termUnits doc.eol, ⟨k, (doc.lines.get ⟨k, hk⟩).length⟩,
            byteStart doc k + utf8Length (doc.lines.get ⟨k, hk⟩),
            charStart doc k + cpCount (doc.lines.get ⟨k, hk⟩)⟩ :
          CharInfo)]).length = cpCount (doc.lines.get ⟨k, hk⟩) + 1 := by
      rw [List.length_append, hlen, List.length_singleton]
    rw [← hlen2, List.drop_left]

/-! ## Facts about the whole-document record list -/

theorem iterCharFrom_ne_nil (doc : Doc) (pos : Pos) (b c : Nat) :
    iterCharFrom doc pos b c ≠ [] := by
  cases hadv : advancePosition pos doc 1 with
  | none => rw [iterCharFrom_stop hadv]; simp
  | some next => rw [iterCharFrom_step hadv]; simp

theorem length_pos_of_wf {doc : Doc} (hwf : WfDoc doc) :
    0 < doc.lines.length := List.length_pos.mpr hwf.1

theorem recs_last_decomp (doc : Doc) (hwf : WfDoc doc) :
    (iterCharFrom doc ⟨0, 0⟩ 0 0).drop (charStart doc (doc.lines.length - 1)) =
      lineRecsFrom (doc.lines.length - 1) (lineText doc (doc.lines.length - 1)) 0
          (byteStart doc (doc.lines.length - 1))
          (charStart doc (doc.lines.length - 1)) ++
        [⟨[], endOfDocumentPos doc, totalBytes doc, totalChars doc⟩] := by
  have hn := length_pos_of_wf hwf
  have hm : doc.lines.length - 1 < doc.lines.length := by omega
  have hlineM : doc.lines.get? (doc.lines.length - 1) =
      some (lineText doc (doc.lines.length - 1)) := by
    rw [lineText_get hm]
    exact List.get?_eq_get hm
  have hnone : doc.lines.get? (doc.lines.length - 1 + 1) = none :=
    List.get?_eq_none.mpr (by omega)
  have hwfM : wfUnits (lineText doc (doc.lines.length - 1)) = true := by
    rw [lineText_get hm]
    exact hwf.2 _ (doc.lines.get_mem _ _)
  rw [← lineStart_corr doc hwf _ hm,
    iterCharFrom_lastLine doc hlineM hnone hwfM]
  rfl

theorem recs_length (doc : Doc) (hwf : WfDoc doc) :
    (iterCharFrom doc ⟨0, 0⟩ 0 0).length = totalChars doc + 1 := by
  have hn := length_pos_of_wf hwf
  have hm : doc.lines.length - 1 < doc.lines.length := by omega
  have hwfM : wfUnits (lineText doc (doc.lines.length - 1)) = true := by
    rw [lineText_get hm]
    exact hwf.2 _ (doc.lines.get_mem _ _)
  have hd := recs_last_decomp doc hwf
  have hlen : (lineRecsFrom (doc.lines.length - 1)
      (lineText doc (doc.lines.length - 1)) 0
      (byteStart doc (doc.lines.length - 1))
      (charStart doc (doc.lines.length - 1))).length =
      cpCount (lineText doc (doc.lines.length - 1)) := by
    have h2 := lineRecsFrom_length (doc.lines.length - 1)
      (lineText doc (doc.lines.length - 1))
      (lineText doc (doc.lines.length - 1)).length 0
      (byteStart doc (doc.lines.length - 1))
      (charStart doc (doc.lines.length - 1)) (by omega)
      (by rw [List.drop_zero]; exact hwfM)
    rw [List.drop_zero] at h2
    exact h2
  have hdl : ((iterCharFrom doc ⟨0, 0⟩ 0 0).drop
      (charStart doc (doc.lines.length - 1))).length =
      cpCount (lineText doc (doc.lines.length - 1)) + 1 := by
    rw [hd, List.length_append, hlen, List.length_singleton]
  rw [List.length_drop] at hdl
  unfold totalChars
  omega

theorem recs_get_last (doc : Doc) (hwf : WfDoc doc) :
    (iterCharFrom doc ⟨0, 0⟩ 0 0).get? (totalChars doc) =
      some ⟨[], endOfDocumentPos doc, totalBytes doc, totalChars doc⟩ := by
  have hn := length_pos_of_wf hwf
  have hm : doc.lines.length - 1 < doc.lines.length := by omega
  have hwfM : wfUnits (lineText doc (doc.lines.length - 1)) = true := by
    rw [lineText_get hm]
    exact hwf.2 _ (doc.lines.get_mem _ _)
  have hd := recs_last_decomp doc hwf
  have hlen : (lineRecsFrom (doc.lines.length - 1)
      (lineText doc (doc.lines.length - 1)) 0
      (byteStart doc (doc.lines.length - 1))
      (charStart doc (doc.lines.length - 1))).length =
      cpCount (lineText doc (doc.lines.length - 1)) := by
    have h2 := lineRecsFrom_length (doc.lines.length - 1)
      (lineText doc (doc.lines.length - 1))
      (lineText doc (doc.lines.length - 1)).length 0
      (byteStart doc (doc.lines.length - 1))
      (charStart doc (doc.lines.length - 1)) (by omega)
      (by rw [List.drop_zero]; exact hwfM)
    rw [List.drop_zero] at h2
    exact h2
  have ht : totalChars doc = charStart doc (doc.lines.length - 1) +
      cpCount (lineText doc (doc.lines.length - 1)) := rfl
  conv_lhs => rw [ht, ← List.get?_drop, hd]
  rw [List.get?_append_right (le_of_eq hlen), hlen, Nat.sub_self]
  rfl

theorem recs_charOffset (doc : Doc) {i : Nat} {r : CharInfo}
    (h : (iterCharFrom doc ⟨0, 0⟩ 0 0).get? i = some r) : r.charOffset = i := by
  have := iterCharAux_charOffset (posMeasure doc ⟨0, 0⟩ + 1) ⟨0, 0⟩ 0 0 i r h
  omega

theorem recs_byte_mono (doc : Doc) {i j2 : Nat} {r1 r2 : CharInfo}
    (h1 : (iterCharFrom doc ⟨0, 0⟩ 0 0).get? i = some r1)
    (h2 : (iterCharFrom doc ⟨0, 0⟩ 0 0).get? j2 = some r2) (hij : i < j2) :
    r1.byteOffset < r2.byteOffset := by
  have := iterCharAux_byte_mono (j2 - i - 1) i r1 r2 h1
    (by rw [show i + (j2 - i - 1) + 1 = j2 by omega]; exact h2)
  exact this

theorem recs_byte_le_total (doc : Doc) (hwf : WfDoc doc) {i : Nat} {r : CharInfo}
    (h : (iterCharFrom doc ⟨0, 0⟩ 0 0).get? i = some r) :
    r.byteOffset ≤ totalBytes doc := by
  have hlast := recs_get_last doc hwf
  have hi : i < (iterCharFrom doc ⟨0, 0⟩ 0 0).length := get?_lt_length h
  rw [recs_length doc hwf] at hi
  by_cases he : i = totalChars doc
  · subst he
    rw [h] at hlast
    have hr : r = ⟨[], endOfDocumentPos doc, totalBytes doc, totalChars doc⟩ :=
      Option.some_injective _ hlast
    rw [hr]
  · have hlt : i < totalChars doc := by omega
    have hm2 := recs_byte_mono doc h hlast hlt
    dsimp only at hm2
    omega

/-! ## Correspondence between the per-line scan records and the document scan -/

theorem scanB_corr (doc : Doc) (hwf : WfDoc doc) {k : Nat}
    (hk : k < doc.lines.length) (m : Nat) :
    ((iterCharFrom doc ⟨k, 0⟩ (byteStart doc k) 0).get? m).map
        (fun r => (r.char, r.pos, r.byteOffset)) =
      ((iterCharFrom doc ⟨0, 0⟩ 0 0).get? (charStart doc k + m)).map
        (fun r => (r.char, r.pos, r.byteOffset)) := by
  have h3 := lineStart_corr doc hwf k hk
  rw [← List.get?_drop, ← h3,
    iterCharFrom_shift doc ⟨k, 0⟩ (byteStart doc k) (charStart doc k),
    iterCharFrom_shift doc ⟨k, 0⟩ (byteStart doc k) 0,
    List.get?_map, List.get?_map]
  cases (iterCharFrom doc ⟨k, 0⟩ 0 0).get? m <;> simp

theorem scanC_corr (doc : Doc) (hwf : WfDoc doc) {k : Nat}
    (hk : k < doc.lines.length) (m : Nat) :
    ((iterCharFrom doc ⟨k, 0⟩ 0 (charStart doc k)).get? m).map
        (fun r => (r.char, r.pos, r.charOffset)) =
      ((iterCharFrom doc ⟨0, 0⟩ 0 0).get? (charStart doc k + m)).map
        (fun r => (r.char, r.pos, r.charOffset)) := by
  have h3 := lineStart_corr doc hwf k hk
  rw [← List.get?_drop, ← h3,
    iterCharFrom_shift doc ⟨k, 0⟩ (byteStart doc k) (charStart doc k),
    iterCharFrom_shift doc ⟨k, 0⟩ 0 (charStart doc k),
    List.get?_map, List.get?_map]
  cases (iterCharFrom doc ⟨k, 0⟩ 0 0).get? m <;> simp

theorem scanB_entry (doc : Doc) (hwf : WfDoc doc) {k : Nat}
    (hk : k < doc.lines.length) (m : Nat) {r : CharInfo}
    (h : (iterCharFrom doc ⟨0, 0⟩ 0 0).get? (charStart doc k + m) = some r) :
    ∃ r2, (iterCharFrom doc ⟨k, 0⟩ (byteStart doc k) 0).get? m = some r2 ∧
      r2.pos = r.pos ∧ r2.byteOffset = r.byteOffset := by
  have hc := scanB_corr doc hwf hk m
  rw [h] at hc
  cases h2 : (iterCharFrom doc ⟨k, 0⟩ (byteStart doc k) 0).get? m with
  | none => rw [h2] at hc; simp at hc
  | some r2 =>
    rw [h2] at hc
    simp only [Option.map_some', Option.some_inj, Prod.mk.injEq] at hc
    exact ⟨r2, rfl, hc.2.1, hc.2.2⟩

theorem scanB_entry_rev (doc : Doc) (hwf : WfDoc doc) {k : Nat}
    (hk : k < doc.lines.length) (m : Nat) {r2 : CharInfo}
    (h : (iterCharFrom doc ⟨k, 0⟩ (byteStart doc k) 0).get? m = some r2) :
    ∃ r, (iterCharFrom doc ⟨0, 0⟩ 0 0).get? (charStart doc k + m) = some r ∧
      r2.pos = r.pos ∧ r2.byteOffset = r.byteOffset := by
  have hc := scanB_corr doc hwf hk m
  rw [h] at hc
  cases h2 : (iterCharFrom doc ⟨0, 0⟩ 0 0).get? (charStart doc k + m) with
  | none => rw [h2] at hc; simp at hc
  | some r =>
    rw [h2] at hc
    simp only [Option.map_some', Option.some_inj, Prod.mk.injEq] at hc
    exact ⟨r, rfl, hc.2.1, hc.2.2⟩

theorem scanC_entry (doc : Doc) (hwf : WfDoc doc) {k : Nat}
    (hk : k < doc.lines.length) (m : Nat) {r : CharInfo}
    (h : (iterCharFrom doc ⟨0, 0⟩ 0 0).get? (charStart doc k + m) = some r) :
    ∃ r2, (iterCharFrom doc ⟨k, 0⟩ 0 (charStart doc k)).get? m = some r2 ∧
      r2.pos = r.pos ∧ r2.charOffset = r.charOffset := by
  have hc := scanC_corr doc hwf hk m
  rw [h] at hc
  cases h2 : (iterCharFrom doc ⟨k, 0⟩ 0 (charStart doc k)).get? m with
  | none => rw [h2] at hc; simp at hc
  | some r2 =>
    rw [h2] at hc
    simp only [Option.map_some', Option.some_inj, Prod.mk.injEq] at hc
    exact ⟨r2, rfl, hc.2.1, hc.2.2⟩

theorem scanC_entry_rev (doc : Doc) (hwf : WfDoc doc) {k : Nat}
    (hk : k < doc.lines.length) (m : Nat) {r2 : CharInfo}
    (h : (iterCharFrom doc ⟨k, 0⟩ 0 (charStart doc k)).get? m = some r2) :
    ∃ r, (iterCharFrom doc ⟨0, 0⟩ 0 0).get? (charStart doc k + m) = some r ∧
      r2.pos = r.pos ∧ r2.charOffset = r.charOffset := by
  have hc := scanC_corr doc hwf hk m
  rw [h] at hc
  cases h2 : (iterCharFrom doc ⟨0, 0⟩ 0 0).get? (charStart doc k + m) with
  | none => rw [h2] at hc; simp at hc
  | some r =>
    rw [h2] at hc
    simp only [Option.map_some', Option.some_inj, Prod.mk.injEq] at hc
    exact ⟨r, rfl, hc.2.1, hc.2.2⟩

/-! ## Behaviour of the inner scans of `gotoByte` and `gotoChar` -/

theorem gotoByteScan_hit (t : Nat) :
    ∀ (rs : List CharInfo) (prev : Option Pos) (i : Nat) (r : CharInfo),
      rs.get? i = some r → r.byteOffset = t →
      (∀ m rm, m < i → rs.get? m = some rm → rm.byteOffset < t) →
      gotoByteScan t prev rs = some ⟨r.pos, r.pos⟩ := by
  intro rs
  induction rs with
  | nil => intro prev i r h _ _; simp at h
  | cons r0 rest ih =>
    intro prev i r h ht hlt
    match i with
    | 0 =>
      simp only [List.get?_cons_zero, Option.some_inj] at h
      subst h
      unfold gotoByteScan
      rw [if_pos ht]
    | i2 + 1 =>
      have h0 : r0.byteOffset < t := hlt 0 r0 (by omega) rfl
      simp only [List.get?_cons_succ] at h
      unfold gotoByteScan
      rw [if_neg (by omega), if_neg (by omega)]
      exact ih (some r0.pos) i2 r h ht
        (fun m rm hm hg => hlt (m + 1) rm (by omega)
          (by rw [List.get?_cons_succ]; exact hg))

theorem gotoByteScan_inside (t : Nat) :
    ∀ (rs : List CharInfo) (prev : Option Pos) (i : Nat) (r1 r2 : CharInfo),
      rs.get? i = some r1 → rs.get? (i + 1) = some r2 →
      r1.byteOffset < t → t < r2.byteOffset →
      (∀ m rm, m < i → rs.get? m = some rm → rm.byteOffset < t) →
      gotoByteScan t prev rs = some ⟨r1.pos, r2.pos⟩ := by
  intro rs
  induction rs with
  | nil => intro prev i r1 r2 h _ _ _ _; simp at h
  | cons r0 rest ih =>
    intro prev i r1 r2 h1 h2 hl hr hlt
    match i with
    | 0 =>
      simp only [List.get?_cons_zero, Option.some_inj] at h1
      subst h1
      simp only [List.get?_cons_succ] at h2
      unfold gotoByteScan
      rw [if_neg (by omega), if_neg (by omega)]
      match rest, h2 with
      | r2h :: rest2, h2 =>
        simp only [List.get?_cons_zero, Option.some_inj] at h2
        subst h2
        unfold gotoByteScan
        rw [if_neg (by omega), if_pos hr]
        rfl
    | i2 + 1 =>
      have h0 : r0.byteOffset < t := hlt 0 r0 (by omega) rfl
      simp only [List.get?_cons_succ] at h1 h2
      unfold gotoByteScan
      rw [if_neg (by omega), if_neg (by omega)]
      exact ih (some r0.pos) i2 r1 r2 h1 h2 hl hr
        (fun m rm hm hg => hlt (m + 1) rm (by omega)
          (by rw [List.get?_cons_succ]; exact hg))

theorem gotoByteScan_none (t : Nat) :
    ∀ (rs : List CharInfo) (prev : Option Pos),
      (∀ m rm, rs.get? m = some rm → rm.byteOffset < t) →
      gotoByteScan t prev rs = none := by
  intro rs
  induction rs with
  | nil => intro prev _; rfl
  | cons r0 rest ih =>
    intro prev hlt
    have h0 : r0.byteOffset < t := hlt 0 r0 rfl
    unfold gotoByteScan
    rw [if_neg (by omega), if_neg (by omega)]
    exact ih (some r0.pos)
      (fun m rm hg => hlt (m + 1) rm (by rw [List.get?_cons_succ]; exact hg))

theorem gotoCharScan_hit (t : Nat) :
    ∀ (rs : List CharInfo) (prev : Option Pos) (i : Nat) (r : CharInfo),
      rs.get? i = some r → t ≤ r.charOffset →
      (∀ m rm, m < i → rs.get? m = some rm → rm.charOffset < t) →
      gotoCharScan t prev rs = some ⟨r.pos, r.pos⟩ := by
  intro rs
  induction rs with
  | nil => intro prev i r h _ _; simp at h
  | cons r0 rest ih =>
    intro prev i r h ht hlt
    match i with
    | 0 =>
      simp only [List.get?_cons_zero, Option.some_inj] at h
      subst h
      unfold gotoCharScan
      rw [if_pos ht]
    | i2 + 1 =>
      have h0 : r0.charOffset < t := hlt 0 r0 (by omega) rfl
      simp only [List.get?_cons_succ] at h
      unfold gotoCharScan
      rw [if_neg (by omega)]
      exact ih (some r0.pos) i2 r h ht
        (fun m rm hm hg => hlt (m + 1) rm (by omega)
          (by rw [List.get?_cons_succ]; exact hg))

theorem gotoCharScan_none (t : Nat) :
    ∀ (rs : List CharInfo) (prev : Option Pos),
      (∀ m rm, rs.get? m = some rm → rm.charOffset < t) →
      gotoCharScan t prev rs = none := by
  intro rs
  induction rs with
  | nil => intro prev _; rfl
  | cons r0 rest ih =>
    intro prev hlt
    have h0 : r0.charOffset < t := hlt 0 r0 rfl
    unfold gotoCharScan
    rw [if_neg (by omega)]
    exact ih (some r0.pos)
      (fun m rm hg => hlt (m + 1) rm (by rw [List.get?_cons_succ]; exact hg))

/-! ## The scan of one qualifying line resolves the target -/

theorem recs_head_at_line (doc : Doc) (hwf : WfDoc doc) {k : Nat}
    (hk : k < doc.lines.length) :
    ∃ r0, (iterCharFrom doc ⟨0, 0⟩ 0 0).get? (charStart doc k) = some r0 ∧
      r0.byteOffset = byteStart doc k := by
  have h3 := lineStart_corr doc hwf k hk
  cases hh : (iterCharFrom doc ⟨k, 0⟩ (byteStart doc k)
      (charStart doc k)).get? 0 with
  | none =>
    exfalso
    apply iterCharFrom_ne_nil doc ⟨k, 0⟩ (byteStart doc k) (charStart doc k)
    cases hl : iterCharFrom doc ⟨k, 0⟩ (byteStart doc k) (charStart doc k) with
    | nil => rfl
    | cons a as => rw [hl] at hh; simp at hh
  | some r0 =>
    obtain ⟨hb, -, -⟩ := iterCharAux_head hh
    refine ⟨r0, ?_, hb⟩
    have : charStart doc k = charStart doc k + 0 := by omega
    rw [this, ← List.get?_drop, ← h3]
    exact hh

theorem gotoByteScan_line_hit (doc : Doc) (hwf : WfDoc doc) {t i : Nat}
    {r : CharInfo}
    (hget : (iterCharFrom doc ⟨0, 0⟩ 0 0).get? i = some r)
    (ht : r.byteOffset = t)
    {k : Nat} (hk : k < doc.lines.length) (hbs : byteStart doc k ≤ t) :
    gotoByteScan t none (iterCharFrom doc ⟨k, 0⟩ (byteStart doc k) 0) =
      some ⟨r.pos, r.pos⟩ := by
  obtain ⟨r0, hr0, hr0b⟩ := recs_head_at_line doc hwf hk
  have hcs_le : charStart doc k ≤ i := by
    by_contra hno
    have := recs_byte_mono doc hget hr0 (by omega)
    omega
  obtain ⟨r2, hr2, hp2, hb2⟩ := scanB_entry doc hwf hk (i - charStart doc k)
    (by rw [show charStart doc k + (i - charStart doc k) = i by omega]
        exact hget)
  have hres := gotoByteScan_hit t
    (iterCharFrom doc ⟨k, 0⟩ (byteStart doc k) 0) none
    (i - charStart doc k) r2 hr2 (by omega)
    (by
      intro m rm hm hg
      obtain ⟨rr, hrr, -, hbb⟩ := scanB_entry_rev doc hwf hk m hg
      have := recs_byte_mono doc hrr hget (by omega)
      omega)
  rw [hres, hp2]

theorem gotoByteScan_line_inside (doc : Doc) (hwf : WfDoc doc) {t i : Nat}
    {r1 r2 : CharInfo}
    (hget1 : (iterCharFrom doc ⟨0, 0⟩ 0 0).get? i = some r1)
    (hget2 : (iterCharFrom doc ⟨0, 0⟩ 0 0).get? (i + 1) = some r2)
    (hl : r1.byteOffset < t) (hr : t < r2.byteOffset)
    {k : Nat} (hk : k < doc.lines.length) (hbs : byteStart doc k ≤ t) :
    gotoByteScan t none (iterCharFrom doc ⟨k, 0⟩ (byteStart doc k) 0) =
      some ⟨r1.pos, r2.pos⟩ := by
  obtain ⟨r0, hr0, hr0b⟩ := recs_head_at_line doc hwf hk
  have hcs_le : charStart doc k ≤ i := by
    by_contra hno
    by_cases he : charStart doc k = i + 1
    · rw [he, hget2] at hr0
      have heq : r0 = r2 := (Option.some_injective _ hr0).symm
      have hbe : r0.byteOffset = r2.byteOffset := by rw [heq]
      omega
    · have := recs_byte_mono doc hget2 hr0 (by omega)
      omega
  obtain ⟨s1, hs1, hp1, hb1⟩ := scanB_entry doc hwf hk (i - charStart doc k)
    (by rw [show charStart doc k + (i - charStart doc k) = i by omega]
        exact hget1)
  obtain ⟨s2, hs2, hp2, hb2⟩ := scanB_entry doc hwf hk (i - charStart doc k + 1)
    (by rw [show charStart doc k + (i - charStart doc k + 1) = i + 1 by omega]
        exact hget2)
  have hres := gotoByteScan_inside t
    (iterCharFrom doc ⟨k, 0⟩ (byteStart doc k) 0) none
    (i - charStart doc k) s1 s2 hs1 hs2 (by omega) (by omega)
    (by
      intro m rm hm hg
      obtain ⟨rr, hrr, -, hbb⟩ := scanB_entry_rev doc hwf hk m hg
      have := recs_byte_mono doc hrr hget1 (by omega)
      omega)
  rw [hres, hp1, hp2]

theorem gotoByteScan_line_none (doc : Doc) (hwf : WfDoc doc) {t : Nat}
    (hbig : totalBytes doc < t)
    {k : Nat} (hk : k < doc.lines.length) :
    gotoByteScan t none (iterCharFrom doc ⟨k, 0⟩ (byteStart doc k) 0) =
      none := by
  apply gotoByteScan_none
  intro m rm hg
  obtain ⟨rr, hrr, -, hbb⟩ := scanB_entry_rev doc hwf hk m hg
  have := recs_byte_le_total doc hwf hrr
  omega

theorem gotoCharScan_line_hit (doc : Doc) (hwf : WfDoc doc) {t : Nat}
    {r : CharInfo}
    (hget : (iterCharFrom doc ⟨0, 0⟩ 0 0).get? t = some r)
    {k : Nat} (hk : k < doc.lines.length) (hcs : charStart doc k ≤ t) :
    gotoCharScan t none (iterCharFrom doc ⟨k, 0⟩ 0 (charStart doc k)) =
      some ⟨r.pos, r.pos⟩ := by
  obtain ⟨r2, hr2, hp2, hc2⟩ := scanC_entry doc hwf hk (t - charStart doc k)
    (by rw [show charStart doc k + (t - charStart doc k) = t by omega]
        exact hget)
  have hco : r.charOffset = t := recs_charOffset doc hget
  have hres := gotoCharScan_hit t
    (iterCharFrom doc ⟨k, 0⟩ 0 (charStart doc k)) none
    (t - charStart doc k) r2 hr2 (by omega)
    (by
      intro m rm hm hg
      obtain ⟨rr, hrr, -, hcc⟩ := scanC_entry_rev doc hwf hk m hg
      have := recs_charOffset doc hrr
      omega)
  rw [hres, hp2]

theorem gotoCharScan_line_none (doc : Doc) (hwf : WfDoc doc) {t : Nat}
    (hbig : totalChars doc < t)
    {k : Nat} (hk : k < doc.lines.length) :
    gotoCharScan t none (iterCharFrom doc ⟨k, 0⟩ 0 (charStart doc k)) =
      none := by
  apply gotoCharScan_none
  intro m rm hg
  obtain ⟨rr, hrr, -, hcc⟩ := scanC_entry_rev doc hwf hk m hg
  have hco := recs_charOffset doc hrr
  have hlt : charStart doc k + m < (iterCharFrom doc ⟨0, 0⟩ 0 0).length :=
    get?_lt_length hrr
  rw [recs_length doc hwf] at hlt
  omega

/-! ## The outer line loop of `gotoByte` / `gotoChar` -/

theorem ltAuxB_drop (doc : Doc) {k : Nat} (hk : k < doc.lines.length) (B : Nat) :
    iterLineStartAux doc.eol ⟨false, true⟩ (doc.lines.drop k) k B 0 =
      ⟨lineText doc k, ⟨k, 0⟩, B, 0⟩ ::
        iterLineStartAux doc.eol ⟨false, true⟩ (doc.lines.drop (k + 1)) (k + 1)
          (B + utf8Length (lineText doc k) + lineEndBytes doc.eol) 0 := by
  rw [iterLineStartAux_drop ⟨false, true⟩ hk B 0]
  simp

theorem ltAuxC_drop (doc : Doc) {k : Nat} (hk : k < doc.lines.length) (C : Nat) :
    iterLineStartAux doc.eol ⟨true, false⟩ (doc.lines.drop k) k 0 C =
      ⟨lineText doc k, ⟨k, 0⟩, 0, C⟩ ::
        iterLineStartAux doc.eol ⟨true, false⟩ (doc.lines.drop (k + 1)) (k + 1) 0
          (C + cpCount (lineText doc k) + 1) := by
  rw [iterLineStartAux_drop ⟨true, false⟩ hk 0 C]
  simp

theorem gotoByteLines_run_some (doc : Doc) (t : Nat) (sel : Selection)
    (hscan : ∀ k2, k2 < doc.lines.length → byteStart doc k2 ≤ t →
      gotoByteScan t none (iterCharFrom doc ⟨k2, 0⟩ (byteStart doc k2) 0) =
        some sel) :
    ∀ d k, k + d + 1 = doc.lines.length → byteStart doc k ≤ t →
      gotoByteLines doc t
        (peekingAux ⟨lineText doc k, ⟨k, 0⟩, byteStart doc k, 0⟩
          (iterLineStartAux doc.eol ⟨false, true⟩ (doc.lines.drop (k + 1))
            (k + 1) (byteStart doc (k + 1)) 0)) = some sel := by
  intro d
  induction d with
  | zero =>
    intro k hk hbs
    have hdrop : doc.lines.drop (k + 1) = [] :=
      List.drop_eq_nil_iff.mpr (by omega)
    rw [hdrop]
    show gotoByteLines doc t
      [(⟨lineText doc k, ⟨k, 0⟩, byteStart doc k, 0⟩, none)] = some sel
    unfold gotoByteLines
    rw [if_pos (show lineQualifiesByte none t = true from rfl)]
    have hs := hscan k (by omega) hbs
    rw [show iterCharPositions doc
        (some ⟨lineText doc k, ⟨k, 0⟩, byteStart doc k, 0⟩) =
      iterCharFrom doc ⟨k, 0⟩ (byteStart doc k) 0 from rfl, hs]
  | succ dd ih =>
    intro k hk hbs
    have hk1 : k + 1 < doc.lines.length := by omega
    have hline1 : doc.lines.get? (k + 1) = some (lineText doc (k + 1)) := by
      rw [lineText_get hk1]
      exact List.get?_eq_get hk1
    rw [ltAuxB_drop doc hk1 (byteStart doc (k + 1))]
    rw [show byteStart doc (k + 1) + utf8Length (lineText doc (k + 1)) +
        lineEndBytes doc.eol = byteStart doc (k + 1 + 1) from
      (byteStart_succ hline1).symm]
    rw [peekingAux]
    unfold gotoByteLines
    by_cases hq : t < byteStart doc (k + 1)
    · rw [if_pos (by unfold lineQualifiesByte; dsimp only; exact decide_eq_true hq)]
      have hs := hscan k (by omega) hbs
      rw [show iterCharPositions doc
          (some ⟨lineText doc k, ⟨k, 0⟩, byteStart doc k, 0⟩) =
        iterCharFrom doc ⟨k, 0⟩ (byteStart doc k) 0 from rfl, hs]
    · rw [if_neg (by
        unfold lineQualifiesByte
        dsimp only
        simp only [decide_eq_true_eq]
        omega)]
      exact ih (k + 1) (by omega) (by omega)

theorem gotoByteLines_run_none (doc : Doc) (t : Nat)
    (hscan : ∀ k2, k2 < doc.lines.length →
      gotoByteScan t none (iterCharFrom doc ⟨k2, 0⟩ (byteStart doc k2) 0) =
        none) :
    ∀ d k, k + d + 1 = doc.lines.length →
      gotoByteLines doc t
        (peekingAux ⟨lineText doc k, ⟨k, 0⟩, byteStart doc k, 0⟩
          (iterLineStartAux doc.eol ⟨false, true⟩ (doc.lines.drop (k + 1))
            (k + 1) (byteStart doc (k + 1)) 0)) = none := by
  intro d
  induction d with
  | zero =>
    intro k hk
    have hdrop : doc.lines.drop (k + 1) = [] :=
      List.drop_eq_nil_iff.mpr (by omega)
    rw [hdrop]
    show gotoByteLines doc t
      [(⟨lineText doc k, ⟨k, 0⟩, byteStart doc k, 0⟩, none)] = none
    unfold gotoByteLines
    rw [if_pos (show lineQualifiesByte none t = true from rfl)]
    have hs := hscan k (by omega)
    rw [show iterCharPositions doc
        (some ⟨lineText doc k, ⟨k, 0⟩, byteStart doc k, 0⟩) =
      iterCharFrom doc ⟨k, 0⟩ (byteStart doc k) 0 from rfl, hs]
    rfl
  | succ dd ih =>
    intro k hk
    have hk1 : k + 1 < doc.lines.length := by omega
    have hline1 : doc.lines.get? (k + 1) = some (lineText doc (k + 1)) := by
      rw [lineText_get hk1]
      exact List.get?_eq_get hk1
    rw [ltAuxB_drop doc hk1 (byteStart doc (k + 1))]
    rw [show byteStart doc (k + 1) + utf8Length (lineText doc (k + 1)) +
        lineEndBytes doc.eol = byteStart doc (k + 1 + 1) from
      (byteStart_succ hline1).symm]
    rw [peekingAux]
    unfold gotoByteLines
    by_cases hq : t < byteStart doc (k + 1)
    · rw [if_pos (by unfold lineQualifiesByte; dsimp only; exact decide_eq_true hq)]
      have hs := hscan k (by omega)
      rw [show iterCharPositions doc
          (some ⟨lineText doc k, ⟨k, 0⟩, byteStart doc k, 0⟩) =
        iterCharFrom doc ⟨k, 0⟩ (byteStart doc k) 0 from rfl, hs]
      exact ih (k + 1) (by omega)
    · rw [if_neg (by
        unfold lineQualifiesByte
        dsimp only
        simp only [decide_eq_true_eq]
        omega)]
      exact ih (k + 1) (by omega)

theorem gotoCharLines_run_some (doc : Doc) (t : Nat) (sel : Selection)
    (hscan : ∀ k2, k2 < doc.lines.length → charStart doc k2 ≤ t →
      gotoCharScan t none (iterCharFrom doc ⟨k2, 0⟩ 0 (charStart doc k2)) =
        some sel) :
    ∀ d k, k + d + 1 = doc.lines.length → charStart doc k ≤ t →
      gotoCharLines doc t
        (peekingAux ⟨lineText doc k, ⟨k, 0⟩, 0, charStart doc k⟩
          (iterLineStartAux doc.eol ⟨true, false⟩ (doc.lines.drop (k + 1))
            (k + 1) 0 (charStart doc (k + 1)))) = some sel := by
  intro d
  induction d with
  | zero =>
    intro k hk hcs
    have hdrop : doc.lines.drop (k + 1) = [] :=
      List.drop_eq_nil_iff.mpr (by omega)
    rw [hdrop]
    show gotoCharLines doc t
      [(⟨lineText doc k, ⟨k, 0⟩, 0, charStart doc k⟩, none)] = some sel
    unfold gotoCharLines
    rw [if_pos (show lineQualifiesChar none t = true from rfl)]
    have hs := hscan k (by omega) hcs
    rw [show iterCharPositions doc
        (some ⟨lineText doc k, ⟨k, 0⟩, 0, charStart doc k⟩) =
      iterCharFrom doc ⟨k, 0⟩ 0 (charStart doc k) from rfl, hs]
  | succ dd ih =>
    intro k hk hcs
    have hk1 : k + 1 < doc.lines.length := by omega
    have hline1 : doc.lines.get? (k + 1) = some (lineText doc (k + 1)) := by
      rw [lineText_get hk1]
      exact List.get?_eq_get hk1
    rw [ltAuxC_drop doc hk1 (charStart doc (k + 1))]
    rw [show charStart doc (k + 1) + cpCount (lineText doc (k + 1)) + 1 =
        charStart doc (k + 1 + 1) from (charStart_succ hline1).symm]
    rw [peekingAux]
    unfold gotoCharLines
    by_cases hq : t < charStart doc (k + 1)
    · rw [if_pos (by unfold lineQualifiesChar; dsimp only; exact decide_eq_true hq)]
      have hs := hscan k (by omega) hcs
      rw [show iterCharPositions doc
          (some ⟨lineText doc k, ⟨k, 0⟩, 0, charStart doc k⟩) =
        iterCharFrom doc ⟨k, 0⟩ 0 (charStart doc k) from rfl, hs]
    · rw [if_neg (by
        unfold lineQualifiesChar
        dsimp only
        simp only [decide_eq_true_eq]
        omega)]
      exact ih (k + 1) (by omega) (by omega)

theorem gotoCharLines_run_none (doc : Doc) (t : Nat)
    (hscan : ∀ k2, k2 < doc.lines.length →
      gotoCharScan t none (iterCharFrom doc ⟨k2, 0⟩ 0 (charStart doc k2)) =
        none) :
    ∀ d k, k + d + 1 = doc.lines.length →
      gotoCharLines doc t
        (peekingAux ⟨lineText doc k, ⟨k, 0⟩, 0, charStart doc k⟩
          (iterLineStartAux doc.eol ⟨true, false⟩ (doc.lines.drop (k + 1))
            (k + 1) 0 (charStart doc (k + 1)))) = none := by
  intro d
  induction d with
  | zero =>
    intro k hk
    have hdrop : doc.lines.drop (k + 1) = [] :=
      List.drop_eq_nil_iff.mpr (by omega)
    rw [hdrop]
    show gotoCharLines doc t
      [(⟨lineText doc k, ⟨k, 0⟩, 0, charStart doc k⟩, none)] = none
    unfold gotoCharLines
    rw [if_pos (show lineQualifiesChar none t = true from rfl)]
    have hs := hscan k (by omega)
    rw [show iterCharPositions doc
        (some ⟨lineText doc k, ⟨k, 0⟩, 0, charStart doc k⟩) =
      iterCharFrom doc ⟨k, 0⟩ 0 (charStart doc k) from rfl, hs]
    rfl
  | succ dd ih =>
    intro k hk
    have hk1 : k + 1 < doc.lines.length := by omega
    have hline1 : doc.lines.get? (k + 1) = some (lineText doc (k + 1)) := by
      rw [lineText_get hk1]
      exact List.get?_eq_get hk1
    rw [ltAuxC_drop doc hk1 (charStart doc (k + 1))]
    rw [show charStart doc (k + 1) + cpCount (lineText doc (k + 1)) + 1 =
        charStart doc (k + 1 + 1) from (charStart_succ hline1).symm]
    rw [peekingAux]
    unfold gotoCharLines
    by_cases hq : t < charStart doc (k + 1)
    · rw [if_pos (by unfold lineQualifiesChar; dsimp only; exact decide_eq_true hq)]
      have hs := hscan k (by omega)
      rw [show iterCharPositions doc
          (some ⟨lineText doc k, ⟨k, 0⟩, 0, charStart doc k⟩) =
        iterCharFrom doc ⟨k, 0⟩ 0 (charStart doc k) from rfl, hs]
      exact ih (k + 1) (by omega)
    · rw [if_neg (by
        unfold lineQualifiesChar
        dsimp only
        simp only [decide_eq_true_eq]
        omega)]
      exact ih (k + 1) (by omega)

theorem gotoByte_eq_run (doc : Doc) (hn : 0 < doc.lines.length) (t : Nat) :
    gotoByte doc t =
      gotoByteLines doc t
        (peekingAux ⟨lineText doc 0, ⟨0, 0⟩, byteStart doc 0, 0⟩
          (iterLineStartAux doc.eol ⟨false, true⟩ (doc.lines.drop 1) 1
            (byteStart doc 1) 0)) := by
  have hline0 : doc.lines.get? 0 = some (lineText doc 0) := by
    rw [lineText_get hn]
    exact List.get?_eq_get hn
  have hb0 : byteStart doc 0 = 0 := rfl
  have hb1 : 0 + utf8Length (lineText doc 0) + lineEndBytes doc.eol =
      byteStart doc 1 := by
    rw [byteStart_succ hline0, hb0]
  unfold gotoByte iterLineStartPositions
  have h0 : iterLineStartAux doc.eol ⟨false, true⟩ doc.lines 0 0 0 =
      iterLineStartAux doc.eol ⟨false, true⟩ (doc.lines.drop 0) 0
        (byteStart doc 0) 0 := by
    rw [List.drop_zero, hb0]
  rw [h0, ltAuxB_drop doc hn (byteStart doc 0), hb0, hb1]
  rw [peeking]

theorem gotoChar_eq_run (doc : Doc) (hn : 0 < doc.lines.length) (t : Nat) :
    gotoChar doc t =
      gotoCharLines doc t
        (peekingAux ⟨lineText doc 0, ⟨0, 0⟩, 0, charStart doc 0⟩
          (iterLineStartAux doc.eol ⟨true, false⟩ (doc.lines.drop 1) 1 0
            (charStart doc 1))) := by
  have hline0 : doc.lines.get? 0 = some (lineText doc 0) := by
    rw [lineText_get hn]
    exact List.get?_eq_get hn
  have hc0 : charStart doc 0 = 0 := rfl
  have hc1 : 0 + cpCount (lineText doc 0) + 1 = charStart doc 1 := by
    rw [charStart_succ hline0, hc0]
  unfold gotoChar iterLineStartPositions
  have h0 : iterLineStartAux doc.eol ⟨true, false⟩ doc.lines 0 0 0 =
      iterLineStartAux doc.eol ⟨true, false⟩ (doc.lines.drop 0) 0 0
        (charStart doc 0) := by
    rw [List.drop_zero, hc0]
  rw [h0, ltAuxC_drop doc hn (charStart doc 0), hc0, hc1]
  rw [peeking]

/-! ## Top-level characterizations of `gotoByte` and `gotoChar` -/

theorem gotoByte_hit (doc : Doc) (hwf : WfDoc doc) {t i : Nat} {r : CharInfo}
    (hget : (iterCharFrom doc ⟨0, 0⟩ 0 0).get? i = some r)
    (ht : r.byteOffset = t) :
    gotoByte doc t = some ⟨r.pos, r.pos⟩ := by
  have hn := length_pos_of_wf hwf
  rw [gotoByte_eq_run doc hn t]
  exact gotoByteLines_run_some doc t ⟨r.pos, r.pos⟩
    (fun k2 hk2 hbs2 => gotoByteScan_line_hit doc hwf hget ht hk2 hbs2)
    (doc.lines.length - 1) 0 (by omega)
    (by rw [show byteStart doc 0 = 0 from rfl]; omega)

theorem gotoByte_inside (doc : Doc) (hwf : WfDoc doc) {t i : Nat}
    {r1 r2 : CharInfo}
    (hget1 : (iterCharFrom doc ⟨0, 0⟩ 0 0).get? i = some r1)
    (hget2 : (iterCharFrom doc ⟨0, 0⟩ 0 0).get? (i + 1) = some r2)
    (hl : r1.byteOffset < t) (hr : t < r2.byteOffset) :
    gotoByte doc t = some ⟨r1.pos, r2.pos⟩ := by
  have hn := length_pos_of_wf hwf
  rw [gotoByte_eq_run doc hn t]
  exact gotoByteLines_run_some doc t ⟨r1.pos, r2.pos⟩
    (fun k2 hk2 hbs2 =>
      gotoByteScan_line_inside doc hwf hget1 hget2 hl hr hk2 hbs2)
    (doc.lines.length - 1) 0 (by omega)
    (by rw [show byteStart doc 0 = 0 from rfl]; omega)

theorem gotoByte_beyond (doc : Doc) (hwf : WfDoc doc) {t : Nat}
    (hbig : totalBytes doc < t) : gotoByte doc t = none := by
  have hn := length_pos_of_wf hwf
  rw [gotoByte_eq_run doc hn t]
  exact gotoByteLines_run_none doc t
    (fun k2 hk2 => gotoByteScan_line_none doc hwf hbig hk2)
    (doc.lines.length - 1) 0 (by omega)

theorem gotoChar_hit (doc : Doc) (hwf : WfDoc doc) {t : Nat} {r : CharInfo}
    (hget : (iterCharFrom doc ⟨0, 0⟩ 0 0).get? t = some r) :
    gotoChar doc t = some ⟨r.pos, r.pos⟩ := by
  have hn := length_pos_of_wf hwf
  rw [gotoChar_eq_run doc hn t]
  exact gotoCharLines_run_some doc t ⟨r.pos, r.pos⟩
    (fun k2 hk2 hcs2 => gotoCharScan_line_hit doc hwf hget hk2 hcs2)
    (doc.lines.length - 1) 0 (by omega)
    (by rw [show charStart doc 0 = 0 from rfl]; omega)

theorem gotoChar_beyond (doc : Doc) (hwf : WfDoc doc) {t : Nat}
    (hbig : totalChars doc < t) : gotoChar doc t = none := by
  have hn := length_pos_of_wf hwf
  rw [gotoChar_eq_run doc hn t]
  exact gotoCharLines_run_none doc t
    (fun k2 hk2 => gotoCharScan_line_none doc hwf hbig hk2)
    (doc.lines.length - 1) 0 (by omega)

/-! ## Decomposition of `advancePosition` into single steps -/

theorem advancePosition_eq_loop {doc : Doc} {ln : Nat} {line : Units}
    (hline : doc.lines.get? ln = some line) (col cnt : Nat) :
    advancePosition ⟨ln, col⟩ doc cnt = advanceLoop doc cnt ln col line := by
  unfold advancePosition
  rw [hline]

theorem advanceLoop_succ_eol (doc : Doc) (k ln col : Nat) (line : Units)
    (hcol : line.length ≤ col) :
    advanceLoop doc (k + 1) ln col line =
      match doc.lines.get? (ln + 1) with
      | none => none
      | some line2 => advanceLoop doc k (ln + 1) 0 line2 := by
  conv_lhs => unfold advanceLoop
  rw [if_pos hcol]

theorem advanceLoop_succ_high (doc : Doc) (k ln col : Nat) (line : Units)
    (hcol : ¬ line.length ≤ col)
    (hh : isHighSurrogate (line.getD col 0) = true) :
    advanceLoop doc (k + 1) ln col line = advanceLoop doc k ln (col + 2) line := by
  conv_lhs => unfold advanceLoop
  rw [if_neg hcol, if_pos hh]

theorem advanceLoop_succ_low (doc : Doc) (k ln col : Nat) (line : Units)
    (hcol : ¬ line.length ≤ col)
    (hh : isHighSurrogate (line.getD col 0) = false) :
    advanceLoop doc (k + 1) ln col line = advanceLoop doc k ln (col + 1) line := by
  conv_lhs => unfold advanceLoop
  rw [if_neg hcol, if_neg (by rw [hh]; simp)]

theorem advanceLoop_split (doc : Doc) (k ln col : Nat) (line : Units)
    (hline : doc.lines.get? ln = some line) :
    advanceLoop doc (k + 1) ln col line =
      (advanceLoop doc 1 ln col line).bind
        (fun q => advancePosition q doc k) := by
  by_cases hcol : line.length ≤ col
  · rw [advanceLoop_succ_eol doc k ln col line hcol,
      advanceLoop_succ_eol doc 0 ln col line hcol]
    cases hnext : doc.lines.get? (ln + 1) with
    | none => rfl
    | some line2 =>
      show advanceLoop doc k (ln + 1) 0 line2 =
        advancePosition ⟨ln + 1, 0⟩ doc k
      rw [advancePosition_eq_loop hnext 0 k]
  · by_cases hh : isHighSurrogate (line.getD col 0) = true
    · rw [advanceLoop_succ_high doc k ln col line hcol hh,
        advanceLoop_succ_high doc 0 ln col line hcol hh]
      show advanceLoop doc k ln (col + 2) line =
        advancePosition ⟨ln, col + 2⟩ doc k
      rw [advancePosition_eq_loop hline (col + 2) k]
    · have hh2 : isHighSurrogate (line.getD col 0) = false := by
        simp only [Bool.not_eq_true] at hh
        exact hh
      rw [advanceLoop_succ_low doc k ln col line hcol hh2,
        advanceLoop_succ_low doc 0 ln col line hcol hh2]
      show advanceLoop doc k ln (col + 1) line =
        advancePosition ⟨ln, col + 1⟩ doc k
      rw [advancePosition_eq_loop hline (col + 1) k]

/-- C3: `advancePosition(p, doc, k)` performs `k` single steps; each single
step advances the column by one UTF-16 code unit, or by two when the code
unit at the current column is a high surrogate; at or past the end of the
line's text it moves to column 0 of the next line, itself consuming one
step; with no next line it returns the end-of-document sentinel. -/
theorem claim_C3_advancePosition (doc : Doc) (p : Pos) (line : Units)
    (hline : doc.lines.get? p.line = some line) (k : Nat) :
    advancePosition p doc (k + 1) =
      (advancePosition p doc 1).bind (fun q => advancePosition q doc k)
    ∧ (p.col < line.length → isHighSurrogate (line.getD p.col 0) = true →
        advancePosition p doc 1 = some ⟨p.line, p.col + 2⟩)
    ∧ (p.col < line.length → isHighSurrogate (line.getD p.col 0) = false →
        advancePosition p doc 1 = some ⟨p.line, p.col + 1⟩)
    ∧ (line.length ≤ p.col → p.line + 1 < doc.lines.length →
        advancePosition p doc 1 = some ⟨p.line + 1, 0⟩)
    ∧ (line.length ≤ p.col → doc.lines.length ≤ p.line + 1 →
        advancePosition p doc 1 = none) := by
  obtain ⟨pl, pc⟩ := p
  refine ⟨?_, ?_, ?_, ?_, ?_⟩
  · rw [advancePosition_eq_loop hline pc (k + 1),
      advancePosition_eq_loop hline pc 1]
    exact advanceLoop_split doc k pl pc line hline
  · intro hcol hh
    exact advance_col_high hline hcol hh
  · intro hcol hh
    exact advance_col_low hline hcol hh
  · intro hcol hlt
    obtain ⟨l2, h2⟩ : ∃ l2, doc.lines.get? (pl + 1) = some l2 :=
      ⟨_, List.get?_eq_get hlt⟩
    exact advance_eol hline hcol h2
  · intro hcol hge
    exact advance_end hline hcol (List.get?_eq_none.mpr hge)

/-- Witness for C3 at a concrete document: one surrogate-pair step, the
line-boundary step and the end-of-document case, plus the two-step
decomposition, all at `lines = ["a😀", "b"]`. -/
theorem claim_C3_witness :
    advancePosition ⟨0, 1⟩ ⟨[[97, 0xd83d, 0xde00], [98]], Eol.lf⟩ 1 =
        some ⟨0, 3⟩
    ∧ advancePosition ⟨0, 3⟩ ⟨[[97, 0xd83d, 0xde00], [98]], Eol.lf⟩ 1 =
        some ⟨1, 0⟩
    ∧ advancePosition ⟨1, 1⟩ ⟨[[97, 0xd83d, 0xde00], [98]], Eol.lf⟩ 1 = none
    ∧ advancePosition ⟨0, 1⟩ ⟨[[97, 0xd83d, 0xde00], [98]], Eol.lf⟩ 2 =
        (advancePosition ⟨0, 1⟩ ⟨[[97, 0xd83d, 0xde00], [98]], Eol.lf⟩ 1).bind
          (fun q => advancePosition q ⟨[[97, 0xd83d, 0xde00], [98]], Eol.lf⟩ 1) := by
  refine ⟨?_, ?_, ?_, ?_⟩
  · exact (claim_C3_advancePosition ⟨[[97, 0xd83d, 0xde00], [98]], Eol.lf⟩
      ⟨0, 1⟩ [97, 0xd83d, 0xde00] (by decide) 0).2.1 (by decide) (by decide)
  · exact (claim_C3_advancePosition ⟨[[97, 0xd83d, 0xde00], [98]], Eol.lf⟩
      ⟨0, 3⟩ [97, 0xd83d, 0xde00] (by decide) 0).2.2.2.1 (by decide) (by decide)
  · exact (claim_C3_advancePosition ⟨[[97, 0xd83d, 0xde00], [98]], Eol.lf⟩
      ⟨1, 1⟩ [98] (by decide) 0).2.2.2.2 (by decide) (by decide)
  · exact (claim_C3_advancePosition ⟨[[97, 0xd83d, 0xde00], [98]], Eol.lf⟩
      ⟨0, 1⟩ [97, 0xd83d, 0xde00] (by decide) 1).1

/-! ## The full line table -/

theorem ltAux_length (eol : Eol) (opts : LineIterOptions) :
    ∀ (ls : List Units) (k B C : Nat),
      (iterLineStartAux eol opts ls k B C).length = ls.length := by
  intro ls
  induction ls with
  | nil => intro k B C; rfl
  | cons l ls2 ih =>
    intro k B C
    unfold iterLineStartAux
    simp only [List.length_cons, ih]

theorem ltAuxF_drop (doc : Doc) {k : Nat} (hk : k < doc.lines.length) :
    iterLineStartAux doc.eol ⟨false, false⟩ (doc.lines.drop k) k
        (byteStart doc k) (charStart doc k) =
      ⟨lineText doc k, ⟨k, 0⟩, byteStart doc k, charStart doc k⟩ ::
        iterLineStartAux doc.eol ⟨false, false⟩ (doc.lines.drop (k + 1)) (k + 1)
          (byteStart doc (k + 1)) (charStart doc (k + 1)) := by
  have hline : doc.lines.get? k = some (lineText doc k) := by
    rw [lineText_get hk]
    exact List.get?_eq_get hk
  rw [iterLineStartAux_drop ⟨false, false⟩ hk (byteStart doc k)
    (charStart doc k)]
  have e1 : (if (⟨false, false⟩ : LineIterOptions).omitByteOffset then
        byteStart doc k
      else byteStart doc k + utf8Length (lineText doc k) +
        lineEndBytes doc.eol) = byteStart doc (k + 1) := by
    rw [if_neg (by decide)]
    exact (byteStart_succ hline).symm
  have e2 : (if (⟨false, false⟩ : LineIterOptions).omitCharOffset then
        charStart doc k
      else charStart doc k + cpCount (lineText doc k) + 1) =
      charStart doc (k + 1) := by
    rw [if_neg (by decide)]
    exact (charStart_succ hline).symm
  rw [e1, e2]

theorem ltF_get (doc : Doc) :
    ∀ i k, k + i < doc.lines.length →
      (iterLineStartAux doc.eol ⟨false, false⟩ (doc.lines.drop k) k
          (byteStart doc k) (charStart doc k)).get? i =
        some ⟨lineText doc (k + i), ⟨k + i, 0⟩, byteStart doc (k + i),
          charStart doc (k + i)⟩ := by
  intro i
  induction i with
  | zero =>
    intro k hk
    rw [ltAuxF_drop doc (by omega)]
    simp
  | succ ii ih =>
    intro k hk
    rw [ltAuxF_drop doc (by omega), List.get?_cons_succ]
    have h2 := ih (k + 1) (by omega)
    have harith : k + 1 + ii = k + (ii + 1) := by omega
    rw [harith] at h2
    exact h2

theorem lineTable_components (doc : Doc) {i : Nat} {r : LineInfo}
    (hr : (iterLineStartPositions doc ⟨false, false⟩).get? i = some r) :
    r = ⟨lineText doc i, ⟨i, 0⟩, byteStart doc i, charStart doc i⟩ := by
  have hlt : iterLineStartPositions doc ⟨false, false⟩ =
      iterLineStartAux doc.eol ⟨false, false⟩ (doc.lines.drop 0) 0
        (byteStart doc 0) (charStart doc 0) := by
    unfold iterLineStartPositions
    rw [List.drop_zero]
    rfl
  have hi : i < doc.lines.length := by
    have hx := get?_lt_length hr
    rw [hlt, ltAux_length] at hx
    simpa using hx
  rw [hlt] at hr
  have h2 := ltF_get doc i 0 (by omega)
  have h0 : (0 : Nat) + i = i := by omega
  rw [h0] at h2
  rw [h2] at hr
  exact (Option.some_injective _ hr).symm

/-- C2: `iterLineStartPositions` yields one record per line in increasing
line order, the first at offsets `(0, 0)`; every next line's starting char
offset adds the previous line's code-point count plus 1, and its starting
byte offset adds the previous line's UTF-8 byte length plus 2 bytes for a
CRLF document or 1 byte for an LF document. -/
theorem claim_C2_line_table (doc : Doc) (hn : doc.lines ≠ []) :
    (iterLineStartPositions doc ⟨false, false⟩).length = doc.lines.length
    ∧ (∀ i r, (iterLineStartPositions doc ⟨false, false⟩).get? i = some r →
        r.pos = ⟨i, 0⟩ ∧ r.text = lineText doc i ∧
        r.byteOffset = byteStart doc i ∧ r.charOffset = charStart doc i)
    ∧ (∀ r, (iterLineStartPositions doc ⟨false, false⟩).get? 0 = some r →
        r.byteOffset = 0 ∧ r.charOffset = 0)
    ∧ (∀ i r r2, (iterLineStartPositions doc ⟨false, false⟩).get? i = some r →
        (iterLineStartPositions doc ⟨false, false⟩).get? (i + 1) = some r2 →
        r2.charOffset = r.charOffset + cpCount r.text + 1 ∧
        r2.byteOffset = r.byteOffset + utf8Length r.text +
          (if doc.eol = .crlf then 2 else 1)) := by
  refine ⟨?_, ?_, ?_, ?_⟩
  · have hlt : iterLineStartPositions doc ⟨false, false⟩ =
        iterLineStartAux doc.eol ⟨false, false⟩ (doc.lines.drop 0) 0
          (byteStart doc 0) (charStart doc 0) := by
      unfold iterLineStartPositions
      rw [List.drop_zero]
      rfl
    rw [hlt, ltAux_length]
    simp
  · intro i r hr
    rw [lineTable_components doc hr]
    exact ⟨rfl, rfl, rfl, rfl⟩
  · intro r hr
    rw [lineTable_components doc hr]
    exact ⟨rfl, rfl⟩
  · intro i r r2 h1 h2
    have hi1 : i < doc.lines.length := by
      have hlt : iterLineStartPositions doc ⟨false, false⟩ =
          iterLineStartAux doc.eol ⟨false, false⟩ (doc.lines.drop 0) 0
            (byteStart doc 0) (charStart doc 0) := by
        unfold iterLineStartPositions
        rw [List.drop_zero]
        rfl
      have hx := get?_lt_length h1
      rw [hlt, ltAux_length] at hx
      simpa using hx
    have hline : doc.lines.get? i = some (lineText doc i) := by
      rw [lineText_get hi1]
      exact List.get?_eq_get hi1
    rw [lineTable_components doc h1, lineTable_components doc h2]
    refine ⟨?_, ?_⟩
    · exact charStart_succ hline
    · rw [show (if doc.eol = .crlf then 2 else 1) = lineEndBytes doc.eol
        from rfl]
      exact byteStart_succ hline

/-- Witness for C2 at the concrete CRLF document `["a", "bæ", "c"]`. -/
theorem claim_C2_witness :
    (iterLineStartPositions ⟨[[97], [98, 230], [99]], Eol.crlf⟩
        ⟨false, false⟩).length = 3
    ∧ (⟨[98, 230], ⟨1, 0⟩, 3, 2⟩ : LineInfo).byteOffset =
        byteStart ⟨[[97], [98, 230], [99]], Eol.crlf⟩ 1
    ∧ (⟨[99], ⟨2, 0⟩, 8, 5⟩ : LineInfo).charOffset =
        (⟨[98, 230], ⟨1, 0⟩, 3, 2⟩ : LineInfo).charOffset +
          cpCount (⟨[98, 230], ⟨1, 0⟩, 3, 2⟩ : LineInfo).text + 1 := by
  refine ⟨?_, ?_, ?_⟩
  · have h := (claim_C2_line_table ⟨[[97], [98, 230], [99]], Eol.crlf⟩
      (by decide)).1
    rw [h]
    decide
  · exact ((claim_C2_line_table ⟨[[97], [98, 230], [99]], Eol.crlf⟩
      (by decide)).2.1 1 ⟨[98, 230], ⟨1, 0⟩, 3, 2⟩ (by decide)).2.2.1
  · exact ((claim_C2_line_table ⟨[[97], [98, 230], [99]], Eol.crlf⟩
      (by decide)).2.2.2 1 ⟨[98, 230], ⟨1, 0⟩, 3, 2⟩ ⟨[99], ⟨2, 0⟩, 8, 5⟩
      (by decide) (by decide)).1

/-! ## Consecutive character records -/

theorem advance_ne {doc : Doc} {pos next : Pos}
    (h : advancePosition pos doc 1 = some next) : next ≠ pos := by
  obtain ⟨line, hline, hcase⟩ := advance_one_cases h
  rcases hcase with ⟨hcol, hnext⟩ | ⟨hcol, hnext, hsome⟩
  · subst hnext
    intro he
    have h2 := congrArg Pos.col he
    dsimp only at h2
    split at h2 <;> omega
  · subst hnext
    intro he
    have h2 := congrArg Pos.line he
    dsimp only at h2
    omega

theorem iterCharAux_pos_succ {doc : Doc} :
    ∀ fuel pos b c i (r1 r2 : CharInfo),
      (iterCharAux doc fuel pos b c).get? i = some r1 →
      (iterCharAux doc fuel pos b c).get? (i + 1) = some r2 →
      advancePosition r1.pos doc 1 = some r2.pos := by
  intro fuel
  induction fuel with
  | zero => intro pos b c i r1 r2 h1 h2; simp [iterCharAux] at h1
  | succ ff ih =>
    intro pos b c i r1 r2 h1 h2
    unfold iterCharAux at h1 h2
    cases hadv : advancePosition pos doc 1 with
    | none =>
      rw [hadv] at h1 h2
      match i with
      | 0 => simp at h2
      | i2 + 1 => simp at h1
    | some next =>
      rw [hadv] at h1 h2
      match i with
      | 0 =>
        simp only [List.get?_cons_zero, Option.some_inj] at h1
        simp only [List.get?_cons_succ] at h2
        subst h1
        obtain ⟨-, -, hp⟩ := iterCharAux_head h2
        rw [hp]
        exact hadv
      | i2 + 1 =>
        simp only [List.get?_cons_succ] at h1 h2
        exact ih next _ _ i2 r1 r2 h1 h2

theorem recs_byte_succ (doc : Doc) {i : Nat} {r1 r2 : CharInfo}
    (h1 : (iterCharFrom doc ⟨0, 0⟩ 0 0).get? i = some r1)
    (h2 : (iterCharFrom doc ⟨0, 0⟩ 0 0).get? (i + 1) = some r2) :
    r2.byteOffset = r1.byteOffset + utf8Length r1.char ∧ r1.char ≠ [] := by
  unfold iterCharFrom at h1 h2
  exact iterCharAux_byte_succ _ _ _ _ i r1 r2 h1 h2

theorem recs_pos_succ (doc : Doc) {i : Nat} {r1 r2 : CharInfo}
    (h1 : (iterCharFrom doc ⟨0, 0⟩ 0 0).get? i = some r1)
    (h2 : (iterCharFrom doc ⟨0, 0⟩ 0 0).get? (i + 1) = some r2) :
    advancePosition r1.pos doc 1 = some r2.pos := by
  unfold iterCharFrom at h1 h2
  exact iterCharAux_pos_succ _ _ _ _ i r1 r2 h1 h2

/-- C1: byte resolution. Let `r` be the `i`-th record of the character
enumeration. If the target byte offset `b` equals `r`'s starting byte
offset, `gotoByte` sets a single empty (cursor) selection at `r`'s
position. If `b` falls strictly inside `r`'s physical encoding — strictly
between `r.byteOffset` and `r.byteOffset` plus the UTF-8 length of `r`'s
physical character (a multi-byte character or a CRLF terminator) — it sets
a non-empty selection from `r`'s position to the next record's position,
exactly spanning that one character. -/
theorem claim_C1_byte_resolution (doc : Doc) (hwf : WfDoc doc) (b : Nat)
    {i : Nat} {r : CharInfo}
    (hget : (iterCharFrom doc ⟨0, 0⟩ 0 0).get? i = some r) :
    (r.byteOffset = b → gotoByte doc b = some ⟨r.pos, r.pos⟩)
    ∧ (∀ r2, (iterCharFrom doc ⟨0, 0⟩ 0 0).get? (i + 1) = some r2 →
        r.byteOffset < b → b < r.byteOffset + utf8Length r.char →
        gotoByte doc b = some ⟨r.pos, r2.pos⟩ ∧ r.pos ≠ r2.pos) := by
  constructor
  · intro hb
    exact gotoByte_hit doc hwf hget hb
  · intro r2 hget2 hl hr
    have hb2 : r2.byteOffset = r.byteOffset + utf8Length r.char :=
      (recs_byte_succ doc hget hget2).1
    refine ⟨gotoByte_inside doc hwf hget hget2 hl (by omega), ?_⟩
    have hadv := recs_pos_succ doc hget hget2
    exact fun he => advance_ne hadv he.symm

/-- Witness for C1 on the CRLF document `["a", "😀"]`: byte 3 hits the
start of the astral character, byte 4 falls inside its 4-byte UTF-8
encoding. -/
theorem claim_C1_witness :
    gotoByte ⟨[[97], [55357, 56832]], Eol.crlf⟩ 3 =
      some ⟨⟨1, 0⟩, ⟨1, 0⟩⟩
    ∧ gotoByte ⟨[[97], [55357, 56832]], Eol.crlf⟩ 4 =
      some ⟨⟨1, 0⟩, ⟨1, 2⟩⟩ := by
  constructor
  · exact (claim_C1_byte_resolution ⟨[[97], [55357, 56832]], Eol.crlf⟩
      (by decide) 3
      (show (iterCharFrom ⟨[[97], [55357, 56832]], Eol.crlf⟩ ⟨0, 0⟩ 0 0).get? 2
          = some ⟨[55357, 56832], ⟨1, 0⟩, 3, 2⟩ from by decide)).1 rfl
  · exact ((claim_C1_byte_resolution ⟨[[97], [55357, 56832]], Eol.crlf⟩
      (by decide) 4
      (show (iterCharFrom ⟨[[97], [55357, 56832]], Eol.crlf⟩ ⟨0, 0⟩ 0 0).get? 2
          = some ⟨[55357, 56832], ⟨1, 0⟩, 3, 2⟩ from by decide)).2
      ⟨[], ⟨1, 2⟩, 7, 3⟩ (by decide) (by decide) (by decide)).1

/-- C5 counterexample: in the LF document `["ab"]` the total byte length
and total char length are both 2, so target 3 is strictly beyond the end;
the spec says both resolutions should produce a cursor at the
end-of-document position `(0, 2)`, but both return no selection at all. -/
theorem claim_C5_counterexample :
    totalBytes ⟨[[97, 98]], Eol.lf⟩ = 2
    ∧ totalChars ⟨[[97, 98]], Eol.lf⟩ = 2
    ∧ endOfDocumentPos ⟨[[97, 98]], Eol.lf⟩ = ⟨0, 2⟩
    ∧ gotoByte ⟨[[97, 98]], Eol.lf⟩ 3 = none
    ∧ gotoChar ⟨[[97, 98]], Eol.lf⟩ 3 = none
    ∧ gotoByte ⟨[[97, 98]], Eol.lf⟩ 3 ≠ some ⟨⟨0, 2⟩, ⟨0, 2⟩⟩
    ∧ gotoChar ⟨[[97, 98]], Eol.lf⟩ 3 ≠ some ⟨⟨0, 2⟩, ⟨0, 2⟩⟩ := by
  decide

/-- C5 (amended): a target offset equal to the document's total byte/char
length resolves to an empty cursor at the end-of-document position, and
resolution never throws (it is a total function into `Option`); but a
target strictly beyond the total length yields no selection at all
(`none`) instead of resolving to the end-of-document position. -/
theorem claim_C5_amended (doc : Doc) (hwf : WfDoc doc) :
    gotoByte doc (totalBytes doc) =
      some ⟨endOfDocumentPos doc, endOfDocumentPos doc⟩
    ∧ gotoChar doc (totalChars doc) =
      some ⟨endOfDocumentPos doc, endOfDocumentPos doc⟩
    ∧ (∀ t, totalBytes doc < t → gotoByte doc t = none)
    ∧ (∀ t, totalChars doc < t → gotoChar doc t = none) := by
  have hlast := recs_get_last doc hwf
  refine ⟨?_, ?_, ?_, ?_⟩
  · exact gotoByte_hit doc hwf hlast rfl
  · exact gotoChar_hit doc hwf hlast
  · exact fun t ht => gotoByte_beyond doc hwf ht
  · exact fun t ht => gotoChar_beyond doc hwf ht

/-- Witness for the amended C5 at the LF document `["ab"]`. -/
theorem claim_C5_witness :
    gotoByte ⟨[[97, 98]], Eol.lf⟩ 2 = some ⟨⟨0, 2⟩, ⟨0, 2⟩⟩
    ∧ gotoChar ⟨[[97, 98]], Eol.lf⟩ 7 = none := by
  have h := claim_C5_amended ⟨[[97, 98]], Eol.lf⟩ (by decide)
  refine ⟨?_, ?_⟩
  · have h1 := h.1
    rw [show totalBytes ⟨[[97, 98]], Eol.lf⟩ = 2 from rfl,
      show endOfDocumentPos ⟨[[97, 98]], Eol.lf⟩ = ⟨0, 2⟩ from rfl] at h1
    exact h1
  · exact h.2.2.2 7 (by decide)

/-- C6: round trip. For every record `r` yielded by the character
enumeration `iterCharPositions doc none`, resolving `r.charOffset` with
char resolution places an empty cursor back at that same character's
position (the first record whose char offset reaches the target), and
resolving `r.byteOffset` with byte resolution likewise selects that same
position as an empty cursor. -/
theorem claim_C6_round_trip (doc : Doc) (hwf : WfDoc doc) (r : CharInfo)
    (hmem : r ∈ iterCharPositions doc none) :
    gotoChar doc r.charOffset = some ⟨r.pos, r.pos⟩
    ∧ gotoByte doc r.byteOffset = some ⟨r.pos, r.pos⟩ := by
  have hmem2 : r ∈ iterCharFrom doc ⟨0, 0⟩ 0 0 := hmem
  obtain ⟨⟨i, hi⟩, hget⟩ := List.mem_iff_get.mp hmem2
  have hg : (iterCharFrom doc ⟨0, 0⟩ 0 0).get? i = some r := by
    rw [List.get?_eq_get hi, hget]
  have hco : r.charOffset = i := recs_charOffset doc hg
  constructor
  · rw [hco]
    exact gotoChar_hit doc hwf hg
  · exact gotoByte_hit doc hwf hg rfl

/-- Witness for C6 on the LF document `["a", "😀"]`: the astral character's
record has char offset 2 and byte offset 2, and both resolve back to an
empty cursor at its position `(1, 0)`. -/
theorem claim_C6_witness :
    gotoChar ⟨[[97], [55357, 56832]], Eol.lf⟩ 2 = some ⟨⟨1, 0⟩, ⟨1, 0⟩⟩
    ∧ gotoByte ⟨[[97], [55357, 56832]], Eol.lf⟩ 2 = some ⟨⟨1, 0⟩, ⟨1, 0⟩⟩ := by
  exact claim_C6_round_trip ⟨[[97], [55357, 56832]], Eol.lf⟩ (by decide)
    ⟨[55357, 56832], ⟨1, 0⟩, 2, 2⟩ (by decide)

/-! ## Normalization: getDocText -/

theorem getDocText_crlf (doc : Doc) (p q : Pos) (maxLen : Option Nat)
    (heol : doc.eol = Eol.crlf) :
    getDocText doc p q maxLen =
      if brokenCRLF (jsSlice (getTextRange doc p q) maxLen) then
        .error "File contains broken CRLF pairs"
      else .ok (replaceCRLFg (jsSlice (getTextRange doc p q) maxLen)) := by
  simp only [getDocText, heol, if_true]

theorem replaceCRLFg_no_cr :
    ∀ n (t : Units), t.length ≤ n → brokenCRLF t = false →
      13 ∉ replaceCRLFg t := by
  intro n
  induction n with
  | zero =>
    intro t ht hb
    have hnil : t = [] := List.eq_nil_of_length_eq_zero (by omega)
    subst hnil
    simp [replaceCRLFg]
  | succ m ih =>
    intro t ht hb
    match t with
    | [] => simp [replaceCRLFg]
    | [c] =>
      unfold brokenCRLF at hb
      unfold replaceCRLFg
      simp only [Bool.or_eq_false_iff, beq_eq_false_iff_ne, ne_eq] at hb
      simp only [List.mem_singleton]
      omega
    | c :: c2 :: rest =>
      unfold brokenCRLF at hb
      unfold replaceCRLFg
      by_cases hc : c = 13
      · by_cases hc2 : c2 = 10
        · subst hc
          subst hc2
          rw [if_pos (show (13 : Nat) = 13 from rfl)] at hb
          rw [if_pos (show (10 : Nat) = 10 from rfl)] at hb
          rw [if_pos ⟨rfl, rfl⟩]
          intro hmem
          rcases List.mem_cons.mp hmem with h13 | hmem2
          · omega
          · have hlen : rest.length ≤ m := by
              simp only [List.length_cons] at ht
              omega
            exact ih rest hlen hb hmem2
        · subst hc
          rw [if_pos (show (13 : Nat) = 13 from rfl), if_neg hc2] at hb
          exact absurd hb (by simp)
      · rw [if_neg hc] at hb
        by_cases hc10 : c = 10
        · rw [if_pos hc10] at hb
          exact absurd hb (by simp)
        · rw [if_neg hc10] at hb
          rw [if_neg (show ¬(c = 13 ∧ c2 = 10) from fun hand => hc hand.1)]
          intro hmem
          rcases List.mem_cons.mp hmem with h13 | hmem2
          · exact hc h13.symm
          · have hlen : (c2 :: rest).length ≤ m := by
              simp only [List.length_cons] at ht ⊢
              omega
            exact ih (c2 :: rest) hlen hb hmem2

/-- C7: for every CRLF-style document and every extraction range (and
optional truncation), whenever the text-extraction/normalization step
`getDocText` succeeds, the produced string contains no carriage return:
every CRLF pair has been collapsed to a single LF. -/
theorem claim_C7_normalization (doc : Doc) (p q : Pos) (maxLen : Option Nat)
    (s : Units) (heol : doc.eol = Eol.crlf)
    (hok : getDocText doc p q maxLen = .ok s) : 13 ∉ s := by
  rw [getDocText_crlf doc p q maxLen heol] at hok
  by_cases hb : brokenCRLF (jsSlice (getTextRange doc p q) maxLen) = true
  · rw [if_pos hb] at hok
    exact absurd hok (by simp)
  · simp only [Bool.not_eq_true] at hb
    rw [if_neg (by simp [hb])] at hok
    have hs : replaceCRLFg (jsSlice (getTextRange doc p q) maxLen) = s := by
      simpa using hok
    rw [← hs]
    exact replaceCRLFg_no_cr _ _ (Nat.le_refl _) hb

/-- Witness for C7 at the CRLF document `["ab", "c"]` over the full range:
extraction succeeds with the terminator collapsed to LF, and the theorem
yields that no CR remains. -/
theorem claim_C7_witness :
    getDocText ⟨[[97, 98], [99]], Eol.crlf⟩ ⟨0, 0⟩ ⟨1, 1⟩ none =
      .ok [97, 98, 10, 99]
    ∧ 13 ∉ [97, 98, 10, 99] :=
  ⟨rfl, claim_C7_normalization ⟨[[97, 98], [99]], Eol.crlf⟩ ⟨0, 0⟩
    ⟨1, 1⟩ none [97, 98, 10, 99] rfl rfl⟩

/-- C10 (implicit): the CRLF document `["a", "b"]` contains only the
well-formed terminator CR LF (its full extracted text is `a\r\nb`), and
extraction of the full range with no bound succeeds; yet with
`maxLength = 2` the `slice` truncation — applied to the extracted text
before the CRLF well-formedness check — cuts between the `\r` and its
`\n`, so `getDocText` throws the broken-CRLF error. -/
theorem claim_C10_slice_before_check :
    getTextRange ⟨[[97], [98]], Eol.crlf⟩ ⟨0, 0⟩ ⟨1, 1⟩ = [97, 13, 10, 98]
    ∧ getDocText ⟨[[97], [98]], Eol.crlf⟩ ⟨0, 0⟩ ⟨1, 1⟩ none =
        .ok [97, 10, 98]
    ∧ jsSlice (getTextRange ⟨[[97], [98]], Eol.crlf⟩ ⟨0, 0⟩ ⟨1, 1⟩) (some 2)
        = [97, 13]
    ∧ getDocText ⟨[[97], [98]], Eol.crlf⟩ ⟨0, 0⟩ ⟨1, 1⟩ (some 2) =
        .error "File contains broken CRLF pairs" :=
  ⟨rfl, rfl, rfl, rfl⟩

/-! ## The broken-CRLF regex detects exactly the unpaired terminators -/

theorem unpaired_shift (c : Nat) (t : Units) (m : Nat) (h : c ≠ 13 ∨ m ≠ 0) :
    unpairedAt (c :: t) (m + 1) = unpairedAt t m := by
  unfold unpairedAt
  match m, h with
  | 0, h =>
    have hc : c ≠ 13 := by
      rcases h with hc | h0
      · exact hc
      · exact absurd rfl h0
    have e1 : (c == 13) = false := by
      simp only [beq_eq_false_iff_ne, ne_eq]
      exact hc
    simp only [List.getD_cons_succ, List.getD_cons_zero, Nat.add_sub_cancel,
      Nat.zero_sub]
    rw [e1]
    simp
  | m2 + 1, _ =>
    simp only [List.getD_cons_succ, List.getD_cons_zero, Nat.add_sub_cancel]
    simp

theorem hasUnpaired_cons (c : Nat) (t : Units) :
    hasUnpaired (c :: t) =
      (unpairedAt (c :: t) 0 ||
        (List.range t.length).any (fun m => unpairedAt (c :: t) (m + 1))) := by
  unfold hasUnpaired
  rw [List.length_cons, List.range_succ_eq_map, List.any_cons, List.any_map]
  rfl

theorem any_shift (c : Nat) (t : Units) (hc : c ≠ 13) :
    (List.range t.length).any (fun m => unpairedAt (c :: t) (m + 1)) =
      hasUnpaired t := by
  have hpt : ∀ m, unpairedAt (c :: t) (m + 1) = unpairedAt t m :=
    fun m => unpaired_shift c t m (Or.inl hc)
  simp only [hpt]
  rfl

theorem hasUnpaired_crlf_cons (rest : Units) :
    hasUnpaired (13 :: 10 :: rest) = hasUnpaired rest := by
  rw [hasUnpaired_cons]
  have h0 : unpairedAt (13 :: 10 :: rest) 0 = false := rfl
  rw [h0, List.length_cons, List.range_succ_eq_map, List.any_cons,
    List.any_map]
  have h1 : unpairedAt (13 :: 10 :: rest) (0 + 1) = false := rfl
  rw [h1]
  have hpt : ∀ m, unpairedAt (13 :: 10 :: rest) (Nat.succ m + 1) =
      unpairedAt rest m := by
    intro m
    rw [show Nat.succ m + 1 = (m + 1) + 1 from rfl,
      unpaired_shift 13 (10 :: rest) (m + 1) (Or.inr (by omega)),
      unpaired_shift 10 rest m (Or.inl (by omega))]
  have hfun : ((fun m => unpairedAt (13 :: 10 :: rest) (m + 1)) ∘ Nat.succ) =
      unpairedAt rest := by
    funext m
    exact hpt m
  rw [hfun]
  simp only [Bool.false_or]
  rfl

theorem brokenCRLF_eq_aux :
    ∀ n (t : Units), t.length ≤ n → brokenCRLF t = hasUnpaired t := by
  intro n
  induction n with
  | zero =>
    intro t ht
    have hnil : t = [] := List.eq_nil_of_length_eq_zero (by omega)
    subst hnil
    rfl
  | succ m ih =>
    intro t ht
    match t with
    | [] => rfl
    | [c] =>
      unfold brokenCRLF
      rw [hasUnpaired_cons]
      have h1 : unpairedAt [c] 0 =
          ((c == 13) || (c == 10)) := by
        unfold unpairedAt
        simp only [List.getD_cons_zero]
        have e2 : ([c].getD 1 0 == 10) = false := rfl
        rw [e2]
        simp
      rw [h1]
      simp
    | c :: c2 :: rest =>
      unfold brokenCRLF
      by_cases hc : c = 13
      · by_cases hc2 : c2 = 10
        · subst hc
          subst hc2
          rw [if_pos (show (13 : Nat) = 13 from rfl),
            if_pos (show (10 : Nat) = 10 from rfl),
            hasUnpaired_crlf_cons]
          exact ih rest (by simp only [List.length_cons] at ht; omega)
        · subst hc
          rw [if_pos (show (13 : Nat) = 13 from rfl), if_neg hc2]
          have h0 : unpairedAt (13 :: c2 :: rest) 0 = true := by
            unfold unpairedAt
            simp only [List.getD_cons_zero, List.getD_cons_succ]
            have e2 : (c2 == 10) = false := by
              simp only [beq_eq_false_iff_ne, ne_eq]
              exact hc2
            rw [e2]
            simp
          symm
          rw [hasUnpaired_cons, h0]
          simp
      · rw [if_neg hc]
        by_cases hc10 : c = 10
        · rw [if_pos hc10]
          subst hc10
          have h0 : unpairedAt (10 :: c2 :: rest) 0 = true := rfl
          symm
          rw [hasUnpaired_cons, h0]
          simp
        · rw [if_neg hc10]
          have h0 : unpairedAt (c :: c2 :: rest) 0 = false := by
            unfold unpairedAt
            simp only [List.getD_cons_zero]
            have e1 : (c == 13) = false := by
              simp only [beq_eq_false_iff_ne, ne_eq]
              exact hc
            have e2 : (c == 10) = false := by
              simp only [beq_eq_false_iff_ne, ne_eq]
              exact hc10
            rw [e1, e2]
            simp
          rw [hasUnpaired_cons, h0, any_shift c (c2 :: rest) hc]
          exact ih (c2 :: rest)
            (by simp only [List.length_cons] at ht ⊢; omega)

theorem brokenCRLF_eq_hasUnpaired (t : Units) :
    brokenCRLF t = hasUnpaired t :=
  brokenCRLF_eq_aux t.length t (Nat.le_refl _)

/-- C8: for a CRLF document, if the extracted (and truncated) text feeding
the character detail decomposition contains an unpaired `\r` or `\n` — a
`\r` not followed by `\n`, or a `\n` not preceded by `\r` — then
`getDocText` fails with the broken-CRLF error reported upward; for input
with no unpaired terminator the error branch is never taken and the text
is normalized and returned. -/
theorem claim_C8_unpaired_fails (doc : Doc) (p q : Pos) (maxLen : Option Nat)
    (heol : doc.eol = Eol.crlf) :
    (hasUnpaired (jsSlice (getTextRange doc p q) maxLen) = true →
        getDocText doc p q maxLen =
          .error "File contains broken CRLF pairs")
    ∧ (hasUnpaired (jsSlice (getTextRange doc p q) maxLen) = false →
        getDocText doc p q maxLen =
          .ok (replaceCRLFg (jsSlice (getTextRange doc p q) maxLen))) := by
  rw [getDocText_crlf doc p q maxLen heol]
  constructor
  · intro h
    have hb : brokenCRLF (jsSlice (getTextRange doc p q) maxLen) = true := by
      rw [brokenCRLF_eq_hasUnpaired]
      exact h
    rw [if_pos hb]
  · intro h
    have hb : brokenCRLF (jsSlice (getTextRange doc p q) maxLen) = false := by
      rw [brokenCRLF_eq_hasUnpaired]
      exact h
    rw [if_neg (by simp [hb])]

/-- Witness for C8: in the CRLF document `["a", "\nb"]` the extracted text
`a\r\n\nb` has an unpaired `\n`, so extraction fails; the single-line CRLF
document `["x"]` has no unpaired terminator, so extraction succeeds. -/
theorem claim_C8_witness :
    getDocText ⟨[[97], [10, 98]], Eol.crlf⟩ ⟨0, 0⟩ ⟨1, 2⟩ none =
      .error "File contains broken CRLF pairs"
    ∧ getDocText ⟨[[120]], Eol.crlf⟩ ⟨0, 0⟩ ⟨0, 1⟩ none = .ok [120] :=
  ⟨(claim_C8_unpaired_fails ⟨[[97], [10, 98]], Eol.crlf⟩ ⟨0, 0⟩ ⟨1, 2⟩
      none rfl).1 (by decide),
   (claim_C8_unpaired_fails ⟨[[120]], Eol.crlf⟩ ⟨0, 0⟩ ⟨0, 1⟩
      none rfl).2 (by decide)⟩

/-! ## Character detail decomposition -/

theorem icdAux_cons (eol : Eol) (ch : Units) (rest : List Units) (c b : Nat) :
    iterCharDetailsAux eol (ch :: rest) c b =
      ⟨ch, b, c, codePointAt0 ch,
        utf8OfUnits (if ch = [10] ∧ eol = .crlf then [13, 10] else ch),
        (jsStringChars
          (if ch = [10] ∧ eol = .crlf then [13, 10] else ch)).flatten⟩ ::
      iterCharDetailsAux eol rest (c + 1)
        (b + (utf8OfUnits
          (if ch = [10] ∧ eol = .crlf then [13, 10] else ch)).length) := rfl

theorem icdAux_head (eol : Eol) (chars : List Units) (c b : Nat)
    (d : CharDetails)
    (h : (iterCharDetailsAux eol chars c b).get? 0 = some d) :
    d.charOffset = c ∧ d.byteOffset = b := by
  match chars with
  | [] => simp [iterCharDetailsAux] at h
  | ch :: rest =>
    rw [icdAux_cons] at h
    simp only [List.get?_cons_zero, Option.some_inj] at h
    subst h
    exact ⟨rfl, rfl⟩

theorem icdAux_succ (eol : Eol) :
    ∀ (chars : List Units) (c b i : Nat) (d1 d2 : CharDetails),
      (iterCharDetailsAux eol chars c b).get? i = some d1 →
      (iterCharDetailsAux eol chars c b).get? (i + 1) = some d2 →
      d2.charOffset = d1.charOffset + 1 ∧
      d2.byteOffset = d1.byteOffset + d1.bytes.length := by
  intro chars
  induction chars with
  | nil => intro c b i d1 d2 h1 h2; simp [iterCharDetailsAux] at h1
  | cons ch rest ih =>
    intro c b i d1 d2 h1 h2
    rw [icdAux_cons] at h1 h2
    match i with
    | 0 =>
      simp only [List.get?_cons_zero, Option.some_inj] at h1
      simp only [List.get?_cons_succ] at h2
      subst h1
      have hh := icdAux_head eol rest (c + 1) _ d2 h2
      exact ⟨by rw [hh.1], by rw [hh.2]⟩
    | i2 + 1 =>
      simp only [List.get?_cons_succ] at h1 h2
      exact ih (c + 1) _ i2 d1 d2 h1 h2

theorem icdAux_get (eol : Eol) :
    ∀ (chars : List Units) (c b i : Nat) (d : CharDetails),
      (iterCharDetailsAux eol chars c b).get? i = some d →
      ∃ ch, chars.get? i = some ch ∧
        d.char = ch ∧
        d.codePoint = codePointAt0 ch ∧
        d.bytes = utf8OfUnits (if ch = [10] ∧ eol = .crlf then [13, 10] else ch) ∧
        d.charCodes = (jsStringChars
          (if ch = [10] ∧ eol = .crlf then [13, 10] else ch)).flatten ∧
        d.charOffset = c + i := by
  intro chars
  induction chars with
  | nil => intro c b i d h; simp [iterCharDetailsAux] at h
  | cons ch rest ih =>
    intro c b i d h
    rw [icdAux_cons] at h
    match i with
    | 0 =>
      simp only [List.get?_cons_zero, Option.some_inj] at h
      subst h
      exact ⟨ch, rfl, rfl, rfl, rfl, rfl, by show c = c + 0; omega⟩
    | i2 + 1 =>
      simp only [List.get?_cons_succ] at h
      obtain ⟨ch2, hg, h1, h2, h3, h4, h5⟩ := ih (c + 1) _ i2 d h
      exact ⟨ch2, hg, h1, h2, h3, h4, by omega⟩

theorem jsStringChars_flatten_aux :
    ∀ n (s : Units), s.length ≤ n → (jsStringChars s).flatten = s := by
  intro n
  induction n with
  | zero =>
    intro s hs
    have hnil : s = [] := List.eq_nil_of_length_eq_zero (by omega)
    subst hnil
    rfl
  | succ m ih =>
    intro s hs
    match s with
    | [] => rfl
    | [c] => rfl
    | c :: c2 :: rest =>
      unfold jsStringChars
      by_cases hh : isHighSurrogate c = true
      · rw [if_pos hh]
        by_cases hl : isLowSurrogate c2 = true
        · rw [if_pos hl, List.flatten_cons,
            ih rest (by simp only [List.length_cons] at hs; omega)]
          rfl
        · rw [if_neg hl, List.flatten_cons,
            ih (c2 :: rest) (by simp only [List.length_cons] at hs ⊢; omega)]
          rfl
      · rw [if_neg hh, List.flatten_cons,
          ih (c2 :: rest) (by simp only [List.length_cons] at hs ⊢; omega)]
        rfl

theorem jsStringChars_flatten (s : Units) : (jsStringChars s).flatten = s :=
  jsStringChars_flatten_aux s.length s (Nat.le_refl _)

theorem jsStringChars_shape_aux :
    ∀ n (s : Units), s.length ≤ n → wfUnits s = true →
      ∀ ch ∈ jsStringChars s,
        (∃ c, ch = [c] ∧ c < 0x10000 ∧ isHighSurrogate c = false ∧
          isLowSurrogate c = false)
        ∨ (∃ hi lo, ch = [hi, lo] ∧ isHighSurrogate hi = true ∧
          isLowSurrogate lo = true) := by
  intro n
  induction n with
  | zero =>
    intro s hs hwf ch hmem
    have hnil : s = [] := List.eq_nil_of_length_eq_zero (by omega)
    subst hnil
    simp [jsStringChars] at hmem
  | succ m ih =>
    intro s hs hwf ch hmem
    match s with
    | [] => simp [jsStringChars] at hmem
    | [c] =>
      unfold wfUnits at hwf
      simp only [Bool.and_eq_true, Bool.not_eq_true', decide_eq_true_eq]
        at hwf
      simp only [jsStringChars, List.mem_singleton] at hmem
      subst hmem
      exact Or.inl ⟨c, rfl, hwf.2.1, hwf.1, hwf.2.2⟩
    | c :: c2 :: rest =>
      unfold wfUnits at hwf
      unfold jsStringChars at hmem
      by_cases hh : isHighSurrogate c = true
      · rw [if_pos hh] at hwf hmem
        simp only [Bool.and_eq_true] at hwf
        rw [if_pos hwf.1] at hmem
        rcases List.mem_cons.mp hmem with hch | hmem2
        · exact Or.inr ⟨c, c2, hch, hh, hwf.1⟩
        · exact ih rest (by simp only [List.length_cons] at hs; omega)
            hwf.2 ch hmem2
      · rw [if_neg hh] at hwf hmem
        simp only [Bool.and_eq_true, Bool.not_eq_true', decide_eq_true_eq]
          at hwf
        rcases List.mem_cons.mp hmem with hch | hmem2
        · exact Or.inl ⟨c, hch, hwf.1.1, by
            simp only [Bool.not_eq_true] at hh
            exact hh, hwf.1.2⟩
        · exact ih (c2 :: rest)
            (by simp only [List.length_cons] at hs ⊢; omega) hwf.2 ch hmem2

theorem codePointAt0_single (c : Nat) : codePointAt0 [c] = c := rfl

theorem codePointAt0_pair {hi lo : Nat} (hhi : isHighSurrogate hi = true)
    (hlo : isLowSurrogate lo = true) :
    codePointAt0 [hi, lo] = combineSurrogates hi lo := by
  unfold codePointAt0
  rw [decodeUnits_cons_pair [] hhi hlo, List.headD_cons]

theorem combineSurrogates_ge (hi lo : Nat) :
    0x10000 ≤ combineSurrogates hi lo := by
  unfold combineSurrogates
  omega

/-- C4: for every well-formed input string, line-ending style and start
offsets, each record of `iterCharDetails` carries: the logical character;
its first Unicode scalar value as `codePoint`; the UTF-8 encoding of the
character's physical rendering (the CR LF pair when the character is LF
and the style is CRLF, the character itself otherwise) as `bytes`; the
UTF-16 code units of that physical rendering as `charCodes` (2 units
exactly for a CRLF terminator or an astral surrogate-pair character, 1
otherwise); and running offsets that grow from the start offsets by
exactly 1 char and by `bytes.length` bytes per record. -/
theorem claim_C4_charDetails (text : Units) (eol : Eol) (start : Offsets)
    (hwf : wfUnits text = true) :
    (∀ i d, (iterCharDetails text eol start).get? i = some d →
      ∃ ch, (jsStringChars text).get? i = some ch ∧
        d.char = ch
        ∧ d.codePoint = codePointAt0 ch
        ∧ d.bytes = utf8OfUnits (if ch = [10] ∧ eol = .crlf then [13, 10] else ch)
        ∧ d.charCodes = (if ch = [10] ∧ eol = .crlf then [13, 10] else ch)
        ∧ (d.charCodes.length = 1 ∨ d.charCodes.length = 2)
        ∧ (d.charCodes.length = 2 ↔
            ((ch = [10] ∧ eol = Eol.crlf) ∨ 0x10000 ≤ d.codePoint)))
    ∧ (∀ d, (iterCharDetails text eol start).get? 0 = some d →
        d.charOffset = start.char ∧ d.byteOffset = start.byte)
    ∧ (∀ i d1 d2, (iterCharDetails text eol start).get? i = some d1 →
        (iterCharDetails text eol start).get? (i + 1) = some d2 →
        d2.charOffset = d1.charOffset + 1
        ∧ d2.byteOffset = d1.byteOffset + d1.bytes.length) := by
  refine ⟨?_, ?_, ?_⟩
  · intro i d h
    unfold iterCharDetails at h
    obtain ⟨ch, hg, hchar, hcp, hbytes, hcodes, -⟩ :=
      icdAux_get eol (jsStringChars text) start.char start.byte i d h
    have hcodes2 : d.charCodes =
        (if ch = [10] ∧ eol = .crlf then [13, 10] else ch) := by
      rw [hcodes, jsStringChars_flatten]
    have hshape := jsStringChars_shape_aux text.length text (Nat.le_refl _)
      hwf ch (List.get?_mem hg)
    refine ⟨ch, hg, hchar, hcp, hbytes, hcodes2, ?_, ?_⟩
    · by_cases h10 : ch = [10] ∧ eol = .crlf
      · rw [hcodes2, if_pos h10]
        exact Or.inr rfl
      · rw [hcodes2, if_neg h10]
        rcases hshape with ⟨c, hch, -, -, -⟩ | ⟨hi, lo, hch, -, -⟩
        · subst hch; exact Or.inl rfl
        · subst hch; exact Or.inr rfl
    · by_cases h10 : ch = [10] ∧ eol = .crlf
      · rw [hcodes2, if_pos h10]
        exact ⟨fun _ => Or.inl h10, fun _ => rfl⟩
      · rw [hcodes2, if_neg h10]
        rcases hshape with ⟨c, hch, hlt, -, -⟩ | ⟨hi, lo, hch, hhi, hlo⟩
        · subst hch
          have hcpv : d.codePoint = c := by rw [hcp, codePointAt0_single]
          constructor
          · intro hlen
            simp at hlen
          · intro hor
            rcases hor with hor | hor
            · exact absurd hor h10
            · rw [hcpv] at hor
              omega
        · subst hch
          have hcpv : d.codePoint = combineSurrogates hi lo := by
            rw [hcp, codePointAt0_pair hhi hlo]
          constructor
          · intro _
            exact Or.inr (by rw [hcpv]; exact combineSurrogates_ge hi lo)
          · intro _
            rfl
  · intro d h
    unfold iterCharDetails at h
    exact icdAux_head eol (jsStringChars text) start.char start.byte d h
  · intro i d1 d2 h1 h2
    unfold iterCharDetails at h1 h2
    exact icdAux_succ eol (jsStringChars text) start.char start.byte i d1 d2
      h1 h2

/-- Witness for C4 on the text `"a\n😀"` with CRLF style, from offsets
`(0, 0)`: the LF record follows the `a` record at char offset 1 and byte
offset 1, and the astral character's record is as the claim describes. -/
theorem claim_C4_witness :
    ((⟨[10], 1, 1, 10, [13, 10], [13, 10]⟩ : CharDetails).charOffset =
        (⟨[97], 0, 0, 97, [97], [97]⟩ : CharDetails).charOffset + 1
      ∧ (⟨[10], 1, 1, 10, [13, 10], [13, 10]⟩ : CharDetails).byteOffset =
        (⟨[97], 0, 0, 97, [97], [97]⟩ : CharDetails).byteOffset +
          (⟨[97], 0, 0, 97, [97], [97]⟩ : CharDetails).bytes.length)
    ∧ (∃ ch, (jsStringChars [97, 10, 55357, 56832]).get? 2 = some ch ∧
        (⟨[55357, 56832], 3, 2, 128512, [240, 159, 152, 128],
            [55357, 56832]⟩ : CharDetails).char = ch
        ∧ (⟨[55357, 56832], 3, 2, 128512, [240, 159, 152, 128],
            [55357, 56832]⟩ : CharDetails).codePoint = codePointAt0 ch
        ∧ (⟨[55357, 56832], 3, 2, 128512, [240, 159, 152, 128],
            [55357, 56832]⟩ : CharDetails).bytes =
          utf8OfUnits (if ch = [10] ∧ Eol.crlf = .crlf then [13, 10] else ch)
        ∧ (⟨[55357, 56832], 3, 2, 128512, [240, 159, 152, 128],
            [55357, 56832]⟩ : CharDetails).charCodes =
          (if ch = [10] ∧ Eol.crlf = .crlf then [13, 10] else ch)
        ∧ ((⟨[55357, 56832], 3, 2, 128512, [240, 159, 152, 128],
            [55357, 56832]⟩ : CharDetails).charCodes.length = 1 ∨
          (⟨[55357, 56832], 3, 2, 128512, [240, 159, 152, 128],
            [55357, 56832]⟩ : CharDetails).charCodes.length = 2)
        ∧ ((⟨[55357, 56832], 3, 2, 128512, [240, 159, 152, 128],
            [55357, 56832]⟩ : CharDetails).charCodes.length = 2 ↔
            ((ch = [10] ∧ Eol.crlf = Eol.crlf) ∨
              0x10000 ≤ (⟨[55357, 56832], 3, 2, 128512, [240, 159, 152, 128],
                [55357, 56832]⟩ : CharDetails).codePoint))) :=
  ⟨(claim_C4_charDetails [97, 10, 55357, 56832] Eol.crlf ⟨0, 0⟩ (by decide)).2.2
      0 ⟨[97], 0, 0, 97, [97], [97]⟩ ⟨[10], 1, 1, 10, [13, 10], [13, 10]⟩
      (by decide) (by decide),
   (claim_C4_charDetails [97, 10, 55357, 56832] Eol.crlf ⟨0, 0⟩ (by decide)).1
      2 ⟨[55357, 56832], 3, 2, 128512, [240, 159, 152, 128], [55357, 56832]⟩
      (by decide)⟩

/-! ## Offset parsing -/

theorem parseOffsetChars_no_sign (c : Char) (cs : List Char)
    (hp : c ≠ '+') (hm : c ≠ '-') :
    parseOffsetChars (c :: cs) =
      (parseMagnitude (c :: cs)).map
        (fun w => (⟨false, (w : Int)⟩ : ParsedOffset)) := by
  rw [parseOffsetChars.eq_def]
  split
  · rename_i heq
    rw [List.cons.injEq] at heq
    exact absurd heq.1 hp
  · rename_i heq
    rw [List.cons.injEq] at heq
    exact absurd heq.1 hm
  · rfl

/-- C9: `parseOffset` accepts an optional leading `+` or `-` followed by a
decimal integer or a `0x`-prefixed hexadecimal integer; a leading sign
marks the result relative and `-` also negates the value; an input whose
magnitude does not parse is rejected; and the spec's concrete examples
`parseOffset "+0x0a"` and `parseOffset "-10"` hold. -/
theorem claim_C9_parseOffset (rest : List Char) (v : Nat) :
    (parseMagnitude rest = some v →
      parseOffsetChars ('+' :: rest) = some ⟨true, (v : Int)⟩
      ∧ parseOffsetChars ('-' :: rest) = some ⟨true, -(v : Int)⟩)
    ∧ (parseMagnitude rest = none →
      parseOffsetChars ('+' :: rest) = none
      ∧ parseOffsetChars ('-' :: rest) = none)
    ∧ (∀ c cs, c ≠ '+' → c ≠ '-' →
      parseOffsetChars (c :: cs) =
        (parseMagnitude (c :: cs)).map
          (fun w => (⟨false, (w : Int)⟩ : ParsedOffset)))
    ∧ parseOffset "+0x0a" = some ⟨true, 10⟩
    ∧ parseOffset "-10" = some ⟨true, -10⟩
    ∧ parseOffset "10" = some ⟨false, 10⟩
    ∧ parseOffset "0x0a" = some ⟨false, 10⟩
    ∧ parseOffset "" = none
    ∧ parseOffset "abc" = none
    ∧ parseOffset "+" = none := by
  refine ⟨?_, ?_, ?_, ?_, ?_, ?_, ?_, ?_, ?_, ?_⟩
  · intro h
    constructor
    · simp only [parseOffsetChars]
      rw [h]
      rfl
    · simp only [parseOffsetChars]
      rw [h]
      rfl
  · intro h
    constructor
    · simp only [parseOffsetChars]
      rw [h]
      rfl
    · simp only [parseOffsetChars]
      rw [h]
      rfl
  · exact parseOffsetChars_no_sign
  · decide
  · decide
  · decide
  · decide
  · decide
  · decide
  · decide

/-- Witness for C9 at the magnitude `10` read from the characters `10`. -/
theorem claim_C9_witness :
    parseMagnitude ['1', '0'] = some 10
    ∧ parseOffsetChars ('+' :: ['1', '0']) = some ⟨true, (10 : Int)⟩ :=
  ⟨by decide, ((claim_C9_parseOffset ['1', '0'] 10).1 (by decide)).1⟩

end CodePoints
